import Mathlib

/-! Shallow embedding of vialsort.py — the vial-sort puzzle core
(PourAction, AddEmptyVialAction, Board) and the puzzle loader
(load_board), together with theorems checking the specification's
claims about them.

Modelling conventions:
- A Python list of ints (a vial) is a `List Int`; the "top" of a vial is
  the END of the list, as in the source.
- Python `int` is `Int`.
- A call that does not return normally — raises an exception or never
  terminates — is modelled as `none` (for the loader, as `Except.error`
  carrying the kind of exception and message).
- The pour loop (`while` in the source) is given explicit fuel.  The
  wrapper `PourAction.apply` uses fuel `length of source vial + 1`;
  lemmas below show this is exact: for distinct indices the loop always
  terminates within that fuel, and for equal indices (where the source
  and destination alias the same Python list object) the loop either
  performs zero iterations or never terminates at any fuel, so `none`
  coincides with real divergence.
- Python's board history list appends new actions at its end and pops
  from its end; here the history list holds the most recent action at
  its HEAD (cons/head instead of append/pop-last), an order-reversing
  but faithful encoding of a stack.
- Vial indices are natural numbers; an out-of-range index makes the
  Python code raise IndexError, modelled as `none` by an explicit bounds
  check (negative Python indices never occur in the program and are out
  of the modelled scope).
-/

namespace Vialsort

/-! ### The data model: PourAction, AddEmptyVialAction, Action, Board -/

structure PourAction where
  from_index : Nat
  to_index : Nat
  qty_moved : Nat
  applied : Bool
  deriving DecidableEq, Repr

inductive Action where
  | pour (p : PourAction)
  | add_empty_vial
  deriving DecidableEq, Repr

structure Board where
  vial_size : Int
  vials : List (List Int)
  history : List Action
  deriving DecidableEq, Repr

/-- The `while` loop of `PourAction.apply` (vialsort.py lines 79–83),
with explicit fuel.  Each iteration re-reads both vials from the board,
appends the source's top to the destination vial, then pops the source
vial — in that order, so the aliased case `from_index = to_index`
behaves exactly as the two Python list mutations on one shared object. -/
def PourAction.applyLoop (vial_size : Int) (from_index to_index : Nat)
    (color : Int) : Nat → List (List Int) → Nat → Option (List (List Int) × Nat)
  | 0, _, _ => none
  | fuel + 1, vials, qty =>
    let from_vial := vials.getD from_index []
    let to_vial := vials.getD to_index []
    match from_vial.getLast? with
    | some c =>
      if c = color ∧ (to_vial.length : Int) < vial_size then
        let vials1 := vials.set to_index (to_vial ++ [c])
        let vials2 := vials1.set from_index ((vials1.getD from_index []).dropLast)
        PourAction.applyLoop vial_size from_index to_index color fuel vials2 (qty + 1)
      else
        some (vials, qty)
    | none => some (vials, qty)

/-- `PourAction.apply` (vialsort.py lines 64–84).  Returns the flag
`self._qty_moved > 0`, the action with its updated `_qty_moved` and
`_applied` fields, and the updated vials; `none` models a call that
raises IndexError (out-of-range index) or never returns (the aliased
self-pour loop). -/
def PourAction.apply (a : PourAction) (vial_size : Int)
    (vials : List (List Int)) : Option (Bool × PourAction × List (List Int)) :=
  if a.from_index < vials.length ∧ a.to_index < vials.length then
    let from_vial := vials.getD a.from_index []
    match from_vial.getLast? with
    | none => some (false, { a with applied := true }, vials)
    | some color =>
      let to_vial := vials.getD a.to_index []
      if (match to_vial.getLast? with
          | some t => decide (t ≠ color)
          | none => false) then
        some (false, { a with applied := true }, vials)
      else
        (PourAction.applyLoop vial_size a.from_index a.to_index color
            (from_vial.length + 1) vials a.qty_moved).map
          (fun r => (decide (0 < r.2),
            { a with qty_moved := r.2, applied := true }, r.1))
  else
    none

/-- The `for` loop of `PourAction.undo` (vialsort.py lines 94–95): move
`qty_moved` units back, one at a time, popping the destination vial and
appending to the source vial.  `none` models the IndexError Python's
`pop` raises on an empty list. -/
def PourAction.undoLoop (from_index to_index : Nat) :
    Nat → List (List Int) → Option (List (List Int))
  | 0, vials => some vials
  | n + 1, vials =>
    let to_vial := vials.getD to_index []
    match to_vial.getLast? with
    | none => none
    | some c =>
      let vials1 := vials.set to_index to_vial.dropLast
      let vials2 := vials1.set from_index ((vials1.getD from_index []) ++ [c])
      PourAction.undoLoop from_index to_index n vials2

/-- `PourAction.undo` (vialsort.py lines 86–95).  Raises (returns
`none`) when the action was never applied; then indexes both vials
(IndexError on out-of-range, modelled by the bounds check) and moves the
recorded quantity back. -/
def PourAction.undo (a : PourAction) (vials : List (List Int)) :
    Option (List (List Int)) :=
  if a.applied = false then none
  else if a.from_index < vials.length ∧ a.to_index < vials.length then
    PourAction.undoLoop a.from_index a.to_index a.qty_moved vials
  else none

/-- `AddEmptyVialAction.apply` (vialsort.py lines 100–102): append a new
empty vial; always returns true. -/
def AddEmptyVialAction.apply (vials : List (List Int)) :
    Bool × List (List Int) :=
  (true, vials ++ [[]])

/-- `AddEmptyVialAction.undo` (vialsort.py lines 104–105):
`board.vials.pop()`; `none` models the IndexError on an empty list. -/
def AddEmptyVialAction.undo (vials : List (List Int)) :
    Option (List (List Int)) :=
  match vials with
  | [] => none
  | _ => some vials.dropLast

/-- Action dispatch for `apply`; an action carries its own mutable
state (`PourAction`'s recorded quantity and applied flag), so `apply`
returns the updated action alongside the updated vials. -/
def Action.apply (a : Action) (vial_size : Int) (vials : List (List Int)) :
    Option (Bool × Action × List (List Int)) :=
  match a with
  | .pour p => (p.apply vial_size vials).map (fun r => (r.1, .pour r.2.1, r.2.2))
  | .add_empty_vial =>
    let r := AddEmptyVialAction.apply vials
    some (r.1, .add_empty_vial, r.2)

/-- Action dispatch for `undo`. -/
def Action.undo (a : Action) (vials : List (List Int)) :
    Option (List (List Int)) :=
  match a with
  | .pour p => p.undo vials
  | .add_empty_vial => AddEmptyVialAction.undo vials

/-- `Board.apply_action` (vialsort.py lines 121–124): run the action's
`apply`; record the (updated) action in the history only when it
returned true. -/
def Board.apply_action (b : Board) (a : Action) : Option Board :=
  (a.apply b.vial_size b.vials).map (fun r =>
    if r.1 then ⟨b.vial_size, r.2.2, r.2.1 :: b.history⟩
    else ⟨b.vial_size, r.2.2, b.history⟩)

/-- `Board.pour` (vialsort.py lines 161–162): construct a fresh
`PourAction` (quantity 0, not yet applied) and route it through
`apply_action`. -/
def Board.pour (b : Board) (from_vial_index to_vial_index : Nat) :
    Option Board :=
  b.apply_action (.pour ⟨from_vial_index, to_vial_index, 0, false⟩)

/-- `Board.add_empty_vial` (vialsort.py lines 164–165). -/
def Board.add_empty_vial (b : Board) : Option Board :=
  b.apply_action .add_empty_vial

/-- `Board.undo` (vialsort.py lines 126–130): no-op on empty history,
otherwise pop the most recent action and run its `undo`. -/
def Board.undo (b : Board) : Option Board :=
  match b.history with
  | [] => some b
  | a :: rest => (a.undo b.vials).map (fun v => ⟨b.vial_size, v, rest⟩)

/-- `Board.is_solved` (vialsort.py lines 141–159): every vial is empty,
or has length equal to `vial_size` and every element equal to its first
element. -/
def Board.is_solved (b : Board) : Bool :=
  b.vials.all (fun vial =>
    match vial with
    | [] => true
    | first_elem :: _ =>
      decide ((vial.length : Int) = b.vial_size) &&
        vial.all (fun e => e == first_elem))

/-! ### Sequences of board operations (for C3 and C4) -/

/-- The two board-mutating commands whose undo behaviour C3 is about. -/
inductive GameOp where
  | pourOp (from_vial_index to_vial_index : Nat)
  | addOp
  deriving DecidableEq, Repr

def runOp (b : Board) : GameOp → Option Board
  | .pourOp i j => b.pour i j
  | .addOp => b.add_empty_vial

def runOps (b : Board) : List GameOp → Option Board
  | [] => some b
  | op :: rest => (runOp b op).bind (fun b1 => runOps b1 rest)

/-- Repeatedly call `Board.undo` until the history is empty, with the
history length as (exact) fuel. -/
def undoAllN : Nat → Board → Option Board
  | 0, b => some b
  | n + 1, b =>
    match b.history with
    | [] => some b
    | _ => (b.undo).bind (undoAllN n)

def undoAll (b : Board) : Option Board := undoAllN b.history.length b

/-- History soundness: successively undoing every recorded action (most
recent first) succeeds and ends at the vials `target`. -/
def HistOk : List Action → List (List Int) → List (List Int) → Prop
  | [], vials, target => vials = target
  | a :: rest, vials, target =>
    match a.undo vials with
    | none => False
    | some v1 => HistOk rest v1 target

/-- The capacity invariant of the data model: every vial's length is at
most `vial_size`. -/
def InvV (vial_size : Int) (vials : List (List Int)) : Prop :=
  ∀ v ∈ vials, (v.length : Int) ≤ vial_size

/-- The three public board operations C4 is about, as user commands. -/
inductive UserOp where
  | pourU (from_vial_index to_vial_index : Nat)
  | addU
  | undoU
  deriving DecidableEq, Repr

def runUserOp (b : Board) : UserOp → Option Board
  | .pourU i j => b.pour i j
  | .addU => b.add_empty_vial
  | .undoU => b.undo

def runUserOps (b : Board) : List UserOp → Option Board
  | [] => some b
  | op :: rest => (runUserOp b op).bind (fun b1 => runUserOps b1 rest)

/-- Capacity invariant strengthened over the history: the current vials
satisfy it, and undoing each recorded action in order succeeds and
keeps satisfying it. -/
def HistInv (vial_size : Int) : List Action → List (List Int) → Prop
  | [], vials => InvV vial_size vials
  | a :: rest, vials =>
    InvV vial_size vials ∧
    match a.undo vials with
    | none => False
    | some v1 => HistInv vial_size rest v1

/-- The multiset of all units across all vials (for C9). -/
def unitsOf (vials : List (List Int)) : Multiset Int :=
  (vials.flatten : Multiset Int)

/-! ### The greedy closed form of the pour loop (distinct indices) -/

/-- Length of the maximal run of units equal to `color` at the top
(end) of a vial. -/
def topRun (color : Int) (l : List Int) : Nat :=
  (l.reverse.takeWhile (fun x => x == color)).length

/-- Declarative result of the greedy pour: move
`m = min (top run of color in source) (remaining capacity of
destination)` units. -/
def pourLoopResult (vial_size : Int) (from_index to_index : Nat) (color : Int)
    (vials : List (List Int)) (qty : Nat) : List (List Int) × Nat :=
  let fv := vials.getD from_index []
  let tv := vials.getD to_index []
  let m := min (topRun color fv) (vial_size - (tv.length : Int)).toNat
  ((vials.set from_index (fv.take (fv.length - m))).set to_index
      (tv ++ List.replicate m color), qty + m)

/-! ### Specification-side definitions (from the spec's words, for
comparison with the source-derived definitions above) -/

/-- The pour algorithm as the spec words it (for C1): if the source vial
is empty, no-op returning false; if the destination is non-empty with a
different top unit, no-op returning false; otherwise greedily move
`m = min (top run of the source's color) (destination's remaining
capacity)` units, and report true iff at least one moved. -/
def pourGreedySpec (vial_size : Int) (from_index to_index : Nat)
    (vials : List (List Int)) : Bool × PourAction × List (List Int) :=
  let fv := vials.getD from_index []
  match fv.getLast? with
  | none => (false, ⟨from_index, to_index, 0, true⟩, vials)
  | some color =>
    let tv := vials.getD to_index []
    if tv ≠ [] ∧ tv.getLast? ≠ some color then
      (false, ⟨from_index, to_index, 0, true⟩, vials)
    else
      let m := min (topRun color fv) (vial_size - (tv.length : Int)).toNat
      (decide (0 < m), ⟨from_index, to_index, m, true⟩,
        (vials.set from_index (fv.take (fv.length - m))).set to_index
          (tv ++ List.replicate m color))

/-- From the spec: a board is solved iff every vial is empty or is
completely full (`length = vial_size`) with every unit identical. -/
def solvedSpec (b : Board) : Prop :=
  ∀ v ∈ b.vials, v = [] ∨
    ((v.length : Int) = b.vial_size ∧ ∀ x ∈ v, ∀ y ∈ v, x = y)

/-! ### The puzzle loader (load_board, vialsort.py lines 168–203)

The JSON text has already been parsed; `JValue` is the parsed value
(`json.loads` output).  Python's dynamic typing makes several of the
loader's operations raise TypeError on ill-typed operands; those are
modelled explicitly.  Python `bool` is a subclass of `int`, so JSON
`true`/`false` count as integers 1/0 where the loader checks for ints. -/

inductive JValue where
  | jnull
  | jbool (b : Bool)
  | jint (n : Int)
  | jstr (s : String)
  | jarr (elems : List JValue)
  | jobj (fields : List (String × JValue))

/-- The kind of exception a loader step raises: `valueError` carries the
descriptive message from the source; `typeError` is an uncaught Python
TypeError; `keyError` an uncaught KeyError. -/
inductive LoadErr where
  | valueError (msg : String)
  | typeError
  | keyError
  deriving DecidableEq, Repr

/-- Substring test on character lists (Python `key in somestring`). -/
def listIsSubOf (needle haystack : List Char) : Bool :=
  (List.range (haystack.length + 1)).any
    (fun i => needle.isPrefixOf (haystack.drop i))

/-- Python `key in data`.  On a dict it is key membership; on a list,
membership by equality (only an equal string can match); on a string, a
substring test; on null/bool/int it raises TypeError. -/
def pyIn (data : JValue) (key : String) : Except LoadErr Bool :=
  match data with
  | .jobj fields => .ok (fields.any (fun f => f.1 == key))
  | .jarr elems => .ok (elems.any (fun e =>
      match e with
      | .jstr s => s == key
      | _ => false))
  | .jstr s => .ok (listIsSubOf key.data s.data)
  | _ => .error .typeError

/-- Last-wins key lookup, matching how `json.loads` builds a dict (a
duplicated key keeps its last value) and how `data[key]` then reads
it. -/
def lookupKey (fields : List (String × JValue)) (key : String) :
    Option JValue :=
  ((fields.filter (fun f => f.1 == key)).getLast?).map (fun f => f.2)

/-- Python `data[key]` with a string key: dict lookup on a dict
(KeyError when absent), TypeError on any other value. -/
def pyGetItem (data : JValue) (key : String) : Except LoadErr JValue :=
  match data with
  | .jobj fields =>
    match lookupKey fields key with
    | some v => .ok v
    | none => .error .keyError
  | _ => .error .typeError

/-- Python `len(vial) > vial_size` where `vial_size` is an arbitrary
JSON value: int comparison when it is an int, bool-as-int when a bool,
TypeError otherwise. -/
def pyLenGT (n : Nat) (v : JValue) : Except LoadErr Bool :=
  match v with
  | .jint m => .ok (decide ((n : Int) > m))
  | .jbool b => .ok (decide ((n : Int) > (if b then 1 else 0)))
  | _ => .error .typeError

/-- `isinstance(unit, int)` check plus the unit's integer value (Python
bools are ints: True is 1, False is 0). -/
def unitToInt : JValue → Except LoadErr Int
  | .jint n => .ok n
  | .jbool b => .ok (if b then 1 else 0)
  | _ => .error (.valueError "Every element in every vial must be an integer.")

def unitsToInts : List JValue → Except LoadErr (List Int)
  | [] => .ok []
  | u :: rest =>
    match unitToInt u with
    | .error e => .error e
    | .ok n =>
      match unitsToInts rest with
      | .error e => .error e
      | .ok ns => .ok (n :: ns)

/-- The loader's per-vial loop (vialsort.py lines 188–198): each element
of "vials" must be an array, must not exceed `vial_size`, and must hold
only integers — checked in that order. -/
def parseVials (vial_size : JValue) : List JValue → Except LoadErr (List (List Int))
  | [] => .ok []
  | v :: rest =>
    match v with
    | .jarr units =>
      match pyLenGT units.length vial_size with
      | .error e => .error e
      | .ok tooMany =>
        if tooMany then .error (.valueError "Vial contains too many units")
        else
          match unitsToInts units with
          | .error e => .error e
          | .ok ns =>
            match parseVials vial_size rest with
            | .error e => .error e
            | .ok rs => .ok (ns :: rs)
    | _ => .error (.valueError "Every element in \"vials\" must be an array.")

/-- What `load_board` hands to the `Board` constructor: the raw
`vial_size` value (never validated, any JSON value flows through) and
the vials. -/
structure LoadedBoard where
  vial_size : JValue
  vials : List (List Int)

/-- `load_board` (vialsort.py lines 168–203), after JSON parsing. -/
def load_board (data : JValue) : Except LoadErr LoadedBoard :=
  match pyIn data "vial_size" with
  | .error e => .error e
  | .ok has_vs =>
    if has_vs = false then .error (.valueError "Key \"vial_size\" is required")
    else
      match pyGetItem data "vial_size" with
      | .error e => .error e
      | .ok vial_size =>
        match pyIn data "vials" with
        | .error e => .error e
        | .ok has_v =>
          if has_v = false then .error (.valueError "Key \"vials\" is required")
          else
            match pyGetItem data "vials" with
            | .error e => .error e
            | .ok vials =>
              match vials with
              | .jarr vlist =>
                match parseVials vial_size vlist with
                | .error e => .error e
                | .ok parsed => .ok ⟨vial_size, parsed⟩
              | _ => .error (.valueError "Key \"vials\" must be an array")

/-- Well-formedness of one loaded vial (for the amended C8): the JSON
element is an array, its length passed the capacity comparison, and its
elements all passed the integer check. -/
def VialOk (vial_size : JValue) (v : JValue) (ns : List Int) : Prop :=
  ∃ units, v = .jarr units ∧ pyLenGT units.length vial_size = .ok false ∧
    unitsToInts units = .ok ns

/-- Shape soundness of the loader (for the amended C8): a successful
load means the input was an object whose "vials" value is an array of
well-formed vials; note no condition at all on the "vial_size" value. -/
def loadShapeOk (data : JValue) (r : LoadedBoard) : Prop :=
  ∃ fields vlist,
    data = .jobj fields ∧
    lookupKey fields "vial_size" = some r.vial_size ∧
    lookupKey fields "vials" = some (.jarr vlist) ∧
    List.Forall₂ (VialOk r.vial_size) vlist r.vials

/-! ### Small list helper lemmas (getD / set / getLast?) -/

theorem getD_set_self {α : Type _} (l : List α) (i : Nat) (v d : α)
    (h : i < l.length) : (l.set i v).getD i d = v := by
  induction l generalizing i with
  | nil => simp at h
  | cons hd tl ih =>
    cases i with
    | zero => simp [List.set, List.getD]
    | succ j =>
      simp only [List.set, List.getD, List.getElem?_cons_succ]
      exact ih j (by simpa using h)

theorem getD_set_ne {α : Type _} (l : List α) {i j : Nat} (v d : α)
    (h : i ≠ j) : (l.set i v).getD j d = l.getD j d := by
  induction l generalizing i j with
  | nil => simp [List.set]
  | cons hd tl ih =>
    cases i with
    | zero =>
      cases j with
      | zero => exact absurd rfl h
      | succ j' => simp [List.set, List.getD]
    | succ i' =>
      cases j with
      | zero => simp [List.set, List.getD]
      | succ j' =>
        simp only [List.set, List.getD, List.getElem?_cons_succ]
        exact ih (fun hc => h (congrArg Nat.succ hc))

theorem set_getD_self {α : Type _} (l : List α) (i : Nat) (d : α)
    (h : i < l.length) : l.set i (l.getD i d) = l := by
  induction l generalizing i with
  | nil => simp at h
  | cons hd tl ih =>
    cases i with
    | zero => simp [List.set, List.getD]
    | succ j =>
      simp only [List.set, List.getD, List.getElem?_cons_succ]
      have := ih j (by simpa using h)
      simpa [List.getD] using congrArg (hd :: ·) this

theorem getD_len_le {α : Type _} (l : List α) (i : Nat) (d : α)
    (h : l.length ≤ i) : l.getD i d = d := by
  induction l generalizing i with
  | nil => simp [List.getD]
  | cons hd tl ih =>
    cases i with
    | zero => simp at h
    | succ j =>
      simp only [List.getD, List.getElem?_cons_succ]
      exact ih j (by simpa using h)

theorem lt_length_of_getD_ne {α : Type _} (l : List α) (i : Nat) (d : α)
    (h : l.getD i d ≠ d) : i < l.length := by
  by_contra hc
  exact h (getD_len_le l i d (Nat.le_of_not_lt hc))

theorem dropLast_append_getLast?_eq {α : Type _} (l : List α) (a : α)
    (h : l.getLast? = some a) : l.dropLast ++ [a] = l := by
  induction l with
  | nil => simp at h
  | cons hd tl ih =>
    cases tl with
    | nil =>
      simp only [List.getLast?_singleton, Option.some.injEq] at h
      simp [h]
    | cons hd2 tl2 =>
      rw [List.getLast?_cons_cons] at h
      have := ih h
      simp only [List.dropLast_cons₂]
      rw [List.cons_append, this]

theorem getLast?_eq_none_imp_nil {α : Type _} (l : List α) (h : l.getLast? = none) :
    l = [] := by
  cases l with
  | nil => rfl
  | cons hd tl =>
    exfalso
    cases tl with
    | nil => simp at h
    | cons hd2 tl2 =>
      rw [List.getLast?_cons_cons] at h
      have := getLast?_eq_none_imp_nil (hd2 :: tl2) h
      simp at this

theorem getLast?_mem_of_eq_some {α : Type _} (l : List α) (a : α)
    (h : l.getLast? = some a) : a ∈ l := by
  rw [← dropLast_append_getLast?_eq l a h]
  exact List.mem_append.mpr (Or.inr (List.mem_singleton.mpr rfl))

/-! ### Lemmas about topRun and the closed form -/

theorem topRun_nil (color : Int) : topRun color [] = 0 := rfl

theorem topRun_getLast_ne (color : Int) (l : List Int) (a : Int)
    (h : l.getLast? = some a) (hne : a ≠ color) : topRun color l = 0 := by
  have hl : l.dropLast ++ [a] = l := dropLast_append_getLast?_eq l a h
  rw [topRun, ← hl, List.reverse_append]
  simp [List.takeWhile_cons, hne]

theorem topRun_getLast_eq (color : Int) (l : List Int)
    (h : l.getLast? = some color) : topRun color l = topRun color l.dropLast + 1 := by
  have hl : l.dropLast ++ [color] = l := dropLast_append_getLast?_eq l color h
  rw [topRun, ← hl, List.reverse_append]
  simp [topRun, List.takeWhile_cons]

theorem pourLoopResult_zero (vial_size : Int) (from_index to_index : Nat)
    (color : Int) (vials : List (List Int)) (qty : Nat)
    (hf : from_index < vials.length) (ht : to_index < vials.length)
    (hm : min (topRun color (vials.getD from_index []))
        (vial_size - ((vials.getD to_index []).length : Int)).toNat = 0) :
    pourLoopResult vial_size from_index to_index color vials qty = (vials, qty) := by
  simp only [pourLoopResult, hm]
  rw [Nat.sub_zero, List.take_length, List.replicate_zero, List.append_nil,
    set_getD_self vials from_index [] hf, set_getD_self vials to_index [] ht,
    Nat.add_zero]

theorem pourLoopResult_step (vial_size : Int) (from_index to_index : Nat)
    (color : Int) (vials : List (List Int)) (qty : Nat)
    (hne : from_index ≠ to_index)
    (hf : from_index < vials.length) (ht : to_index < vials.length)
    (hlast : (vials.getD from_index []).getLast? = some color)
    (hcap : (((vials.getD to_index []).length : Int)) < vial_size) :
    pourLoopResult vial_size from_index to_index color
      ((vials.set to_index ((vials.getD to_index []) ++ [color])).set from_index
        (((vials.set to_index ((vials.getD to_index []) ++ [color])).getD
            from_index []).dropLast))
      (qty + 1)
      = pourLoopResult vial_size from_index to_index color vials qty := by
  have hf1 : from_index < (vials.set to_index ((vials.getD to_index []) ++ [color])).length := by
    rwa [List.length_set]
  have hgetfrom : (vials.set to_index ((vials.getD to_index []) ++ [color])).getD
      from_index [] = vials.getD from_index [] :=
    getD_set_ne vials _ _ (Ne.symm hne)
  set fv := vials.getD from_index [] with hfv
  set tv := vials.getD to_index [] with htv
  set vials1 := vials.set to_index (tv ++ [color]) with hv1
  set vials2 := vials1.set from_index (fv.dropLast) with hv2
  have h2from : vials2.getD from_index [] = fv.dropLast := by
    rw [hv2]; exact getD_set_self vials1 from_index fv.dropLast [] hf1
  have h2to : vials2.getD to_index [] = tv ++ [color] := by
    rw [hv2, getD_set_ne vials1 _ _ hne, hv1]
    exact getD_set_self vials to_index (tv ++ [color]) [] ht
  have hrun : topRun color fv = topRun color fv.dropLast + 1 :=
    topRun_getLast_eq color fv hlast
  have hcapeq : (vial_size - (tv.length : Int)).toNat
      = (vial_size - ((tv.length : Int) + 1)).toNat + 1 := by omega
  simp only [pourLoopResult, h2from, h2to, hgetfrom]
  rw [hrun, ← hfv]
  have hlen2 : (tv ++ [color]).length = tv.length + 1 := by simp
  rw [hlen2]
  have hcast : (((tv.length + 1 : Nat) : Int)) = (tv.length : Int) + 1 := by
    push_cast; ring
  rw [hcast, hcapeq, Nat.succ_min_succ]
  set m2 := min (topRun color fv.dropLast) (vial_size - ((tv.length : Int) + 1)).toNat with hm2
  have htake : fv.dropLast.take (fv.dropLast.length - m2)
      = fv.take (fv.length - (m2 + 1)) := by
    rw [List.dropLast_eq_take, List.length_take, List.take_take]
    congr 1
    omega
  have hrepl : (tv ++ [color]) ++ List.replicate m2 color
      = tv ++ List.replicate (m2 + 1) color := by
    rw [List.append_assoc, List.replicate_succ]
    rfl
  rw [htake, hrepl]
  have hsets : ((vials2.set from_index (fv.take (fv.length - (m2 + 1)))).set to_index
        (tv ++ List.replicate (m2 + 1) color))
      = ((vials.set from_index (fv.take (fv.length - (m2 + 1)))).set to_index
        (tv ++ List.replicate (m2 + 1) color)) := by
    rw [hv2, List.set_set, hv1, List.set_comm _ _ _ (Ne.symm hne), List.set_set,
      List.set_comm _ _ _ hne]
  rw [hsets]
  simp only [Prod.mk.injEq]
  exact ⟨trivial, by omega⟩

theorem applyLoop_closed (vial_size : Int) (from_index to_index : Nat)
    (color : Int) (hne : from_index ≠ to_index) (fuel : Nat) :
    ∀ (vials : List (List Int)) (qty : Nat),
      from_index < vials.length → to_index < vials.length →
      (vials.getD from_index []).length < fuel →
      PourAction.applyLoop vial_size from_index to_index color fuel vials qty =
        some (pourLoopResult vial_size from_index to_index color vials qty) := by
  induction fuel with
  | zero => intro vials qty hf ht hfuel; omega
  | succ n ih =>
    intro vials qty hf ht hfuel
    rw [PourAction.applyLoop]
    simp only []
    cases hlast : (vials.getD from_index []).getLast? with
    | none =>
      have hfe : vials.getD from_index [] = [] :=
        getLast?_eq_none_imp_nil _ hlast
      rw [pourLoopResult_zero vial_size from_index to_index color vials qty hf ht
        (by rw [hfe, topRun_nil]; exact Nat.zero_min _)]
    | some c =>
      dsimp only
      by_cases hcond : c = color ∧
          (((vials.getD to_index []).length : Int)) < vial_size
      · rw [if_pos hcond]
        obtain ⟨hc, hcap⟩ := hcond
        subst hc
        have hne' : vials.getD from_index [] ≠ [] := by
          intro hcontra; rw [hcontra] at hlast; simp at hlast
        have hf1 : from_index <
            ((vials.set to_index ((vials.getD to_index []) ++ [c])).set from_index
              (((vials.set to_index ((vials.getD to_index []) ++ [c])).getD
                from_index []).dropLast)).length := by
          simp only [List.length_set]; exact hf
        have ht1 : to_index <
            ((vials.set to_index ((vials.getD to_index []) ++ [c])).set from_index
              (((vials.set to_index ((vials.getD to_index []) ++ [c])).getD
                from_index []).dropLast)).length := by
          simp only [List.length_set]; exact ht
        have hgetfrom : (vials.set to_index ((vials.getD to_index []) ++ [c])).getD
            from_index [] = vials.getD from_index [] :=
          getD_set_ne vials _ _ (Ne.symm hne)
        have hget2 : ((vials.set to_index ((vials.getD to_index []) ++ [c])).set from_index
              (((vials.set to_index ((vials.getD to_index []) ++ [c])).getD
                from_index []).dropLast)).getD from_index []
            = (vials.getD from_index []).dropLast := by
          rw [getD_set_self _ _ _ _ (by rwa [List.length_set]), hgetfrom]
        have hfuel2 : (((vials.set to_index ((vials.getD to_index []) ++ [c])).set from_index
              (((vials.set to_index ((vials.getD to_index []) ++ [c])).getD
                from_index []).dropLast)).getD from_index []).length < n := by
          rw [hget2, List.length_dropLast]
          have : 0 < (vials.getD from_index []).length :=
            List.length_pos.mpr hne'
          omega
        rw [ih _ (qty + 1) hf1 ht1 hfuel2]
        rw [pourLoopResult_step vial_size from_index to_index c vials qty hne hf ht
          hlast hcap]
      · rw [if_neg hcond]
        rcases Decidable.not_and_iff_or_not.mp hcond with hc | hcap
        · rw [pourLoopResult_zero vial_size from_index to_index color vials qty hf ht
            (by rw [topRun_getLast_ne color _ c hlast hc]; exact Nat.zero_min _)]
        · rw [pourLoopResult_zero vial_size from_index to_index color vials qty hf ht
            (by
              have : (vial_size - (((vials.getD to_index []).length : Int))).toNat = 0 := by
                omega
              rw [this]; exact Nat.min_zero _)]

/-! ### Divergence of the aliased self-pour loop -/

theorem applyLoop_self_diverges (vial_size : Int) (i : Nat) (color : Int)
    (fuel : Nat) :
    ∀ (vials : List (List Int)) (qty : Nat),
      (vials.getD i []).getLast? = some color →
      (((vials.getD i []).length : Int)) < vial_size →
      PourAction.applyLoop vial_size i i color fuel vials qty = none := by
  induction fuel with
  | zero => intro vials qty _ _; rfl
  | succ n ih =>
    intro vials qty hlast hcap
    rw [PourAction.applyLoop]
    dsimp only
    rw [hlast]
    dsimp only
    rw [if_pos ⟨rfl, hcap⟩]
    have hi : i < vials.length := by
      apply lt_length_of_getD_ne vials i []
      intro hcontra
      rw [hcontra] at hlast
      simp at hlast
    have hget1 : (vials.set i ((vials.getD i []) ++ [color])).getD i []
        = (vials.getD i []) ++ [color] :=
      getD_set_self vials i _ [] hi
    have hv2 : (vials.set i ((vials.getD i []) ++ [color])).set i
        (((vials.set i ((vials.getD i []) ++ [color])).getD i []).dropLast)
        = vials := by
      rw [hget1]
      simp only [List.dropLast_concat]
      rw [List.set_set]
      exact set_getD_self vials i [] hi
    rw [hv2]
    exact ih vials (qty + 1) hlast hcap

/-! ### Claim C1 (amended to distinct indices) and its counterexample;
claim C6 -/

/-- C1 (amended): for every board and valid DISTINCT vial indices,
`PourAction.apply` of a fresh pour action computes exactly the greedy
result the spec describes — no-op false on an empty source or on a
non-empty destination with a different top unit, otherwise it moves
`min(top run, remaining capacity)` units, returns true iff at least one
unit moved, and when it returns false the vials are exactly unchanged. -/
theorem pour_apply_greedy_distinct (vial_size : Int)
    (from_index to_index : Nat) (vials : List (List Int))
    (hne : from_index ≠ to_index)
    (hf : from_index < vials.length) (ht : to_index < vials.length) :
    PourAction.apply ⟨from_index, to_index, 0, false⟩ vial_size vials =
      some (pourGreedySpec vial_size from_index to_index vials) ∧
    ((pourGreedySpec vial_size from_index to_index vials).1 = false →
      (pourGreedySpec vial_size from_index to_index vials).2.2 = vials) := by
  constructor
  · unfold PourAction.apply pourGreedySpec
    dsimp only
    rw [if_pos ⟨hf, ht⟩]
    cases hlast : (vials.getD from_index []).getLast? with
    | none => rfl
    | some color =>
      dsimp only
      have hloop := applyLoop_closed vial_size from_index to_index color hne
        ((vials.getD from_index []).length + 1) vials 0 hf ht (Nat.lt_succ_self _)
      rw [hloop]
      cases htl : (vials.getD to_index []).getLast? with
      | none =>
        have htv : vials.getD to_index [] = [] := getLast?_eq_none_imp_nil _ htl
        dsimp only
        rw [if_neg Bool.false_ne_true, if_neg (fun hcontra => hcontra.1 htv)]
        simp only [Option.map_some', pourLoopResult, Nat.zero_add]
      | some t =>
        dsimp only
        by_cases hteq : t = color
        · subst hteq
          rw [if_neg (by simp), if_neg (fun hcontra => hcontra.2 rfl)]
          simp only [Option.map_some', pourLoopResult, Nat.zero_add]
        · have htv : vials.getD to_index [] ≠ [] := by
            intro hcontra
            rw [hcontra] at htl
            simp at htl
          rw [if_pos (by simp [hteq]), if_pos ⟨htv, by simp [hteq]⟩]
  · intro hfalse
    cases hlast : (vials.getD from_index []).getLast? with
    | none =>
      simp only [pourGreedySpec]
      rw [hlast]
    | some color =>
      simp only [pourGreedySpec] at hfalse ⊢
      rw [hlast] at hfalse ⊢
      dsimp only at hfalse ⊢
      by_cases hguard : (vials.getD to_index []) ≠ [] ∧
          (vials.getD to_index []).getLast? ≠ some color
      · rw [if_pos hguard]
      · rw [if_neg hguard] at hfalse ⊢
        dsimp only at hfalse ⊢
        have hm0 : min (topRun color (vials.getD from_index []))
            (vial_size - ((vials.getD to_index []).length : Int)).toNat = 0 :=
          Nat.le_zero.mp (Nat.not_lt.mp (of_decide_eq_false hfalse))
        rw [hm0, Nat.sub_zero, List.take_length, List.replicate_zero,
          List.append_nil, set_getD_self vials from_index [] hf,
          set_getD_self vials to_index [] ht]

/-- Witness for C1's amended theorem at a concrete board: pouring vial 0
onto vial 1 of `[[2,1,1],[1]]` with capacity 3. -/
theorem pour_apply_greedy_distinct_witness :
    PourAction.apply ⟨0, 1, 0, false⟩ 3 [[2, 1, 1], [1]] =
      some (pourGreedySpec 3 0 1 [[2, 1, 1], [1]]) ∧
    ((pourGreedySpec 3 0 1 [[2, 1, 1], [1]]).1 = false →
      (pourGreedySpec 3 0 1 [[2, 1, 1], [1]]).2.2 = [[2, 1, 1], [1]]) :=
  pour_apply_greedy_distinct 3 0 1 [[2, 1, 1], [1]] (by decide) (by decide)
    (by decide)

/-- C1, as stated, is false: it quantifies over all valid index pairs,
but with equal (valid) source and destination index on a non-empty,
non-full vial, `PourAction.apply` never returns a Boolean at all — the
loop body appends and pops the same aliased Python list, leaving the
board unchanged and the loop condition true, so the `while` loop runs
forever.  At board `vial_size=2, vials=[[1]]`, indices 0 and 0: the loop
is unfinished at every fuel, and `apply` yields no result. -/
theorem pour_apply_equal_indices_diverges :
    (∀ fuel qty, PourAction.applyLoop 2 0 0 1 fuel [[1]] qty = none) ∧
    PourAction.apply ⟨0, 0, 0, false⟩ 2 [[1]] = none := by
  constructor
  · intro fuel qty
    exact applyLoop_self_diverges 2 0 1 fuel [[1]] qty (by decide) (by decide)
  · rfl

/-- C6: the claim matches the spec and the code's own contract comment
("apply should return False if the operation has no effect"), but the
code violates it: pouring a vial onto itself, when the vial is non-empty
and below capacity, makes `PourAction.apply` loop forever instead of
returning false.  Shown here at board `vial_size=4, vials=[[7,7]]`,
indices 0 and 0: the loop returns nothing at every fuel. -/
theorem pour_self_apply_diverges :
    (∀ fuel qty, PourAction.applyLoop 4 0 0 7 fuel [[7, 7]] qty = none) ∧
    PourAction.apply ⟨0, 0, 0, false⟩ 4 [[7, 7]] = none := by
  constructor
  · intro fuel qty
    exact applyLoop_self_diverges 4 0 7 fuel [[7, 7]] qty (by decide) (by decide)
  · rfl

/-! ### Round-trip: a successful pour followed by its undo -/

theorem applyLoop_qty_le (vial_size : Int) (from_index to_index : Nat)
    (color : Int) (fuel : Nat) :
    ∀ (vials : List (List Int)) (qty : Nat) (r : List (List Int) × Nat),
      PourAction.applyLoop vial_size from_index to_index color fuel vials qty
        = some r → qty ≤ r.2 := by
  induction fuel with
  | zero =>
    intro vials qty r h
    exact absurd h (by rw [PourAction.applyLoop]; simp)
  | succ n ih =>
    intro vials qty r h
    rw [PourAction.applyLoop] at h
    dsimp only at h
    cases hlast : (vials.getD from_index []).getLast? with
    | none =>
      rw [hlast] at h
      dsimp only at h
      obtain rfl : (vials, qty) = r := by injection h
      exact Nat.le_refl qty
    | some c =>
      rw [hlast] at h
      dsimp only at h
      by_cases hcond : c = color ∧
          (((vials.getD to_index []).length : Int)) < vial_size
      · rw [if_pos hcond] at h
        have := ih _ (qty + 1) r h
        omega
      · rw [if_neg hcond] at h
        obtain rfl : (vials, qty) = r := by injection h
        exact Nat.le_refl qty

theorem applyLoop_unchanged_of_qty_eq (vial_size : Int)
    (from_index to_index : Nat) (color : Int) (fuel : Nat) :
    ∀ (vials : List (List Int)) (qty : Nat) (r : List (List Int) × Nat),
      PourAction.applyLoop vial_size from_index to_index color fuel vials qty
        = some r → r.2 = qty → r.1 = vials := by
  induction fuel with
  | zero =>
    intro vials qty r h
    exact absurd h (by rw [PourAction.applyLoop]; simp)
  | succ n ih =>
    intro vials qty r h hq
    rw [PourAction.applyLoop] at h
    dsimp only at h
    cases hlast : (vials.getD from_index []).getLast? with
    | none =>
      rw [hlast] at h
      dsimp only at h
      obtain rfl : (vials, qty) = r := by injection h
      rfl
    | some c =>
      rw [hlast] at h
      dsimp only at h
      by_cases hcond : c = color ∧
          (((vials.getD to_index []).length : Int)) < vial_size
      · rw [if_pos hcond] at h
        have := applyLoop_qty_le vial_size from_index to_index color n _
          (qty + 1) r h
        omega
      · rw [if_neg hcond] at h
        obtain rfl : (vials, qty) = r := by injection h
        rfl

theorem applyLoop_length (vial_size : Int) (from_index to_index : Nat)
    (color : Int) (fuel : Nat) :
    ∀ (vials : List (List Int)) (qty : Nat) (r : List (List Int) × Nat),
      PourAction.applyLoop vial_size from_index to_index color fuel vials qty
        = some r → r.1.length = vials.length := by
  induction fuel with
  | zero =>
    intro vials qty r h
    exact absurd h (by rw [PourAction.applyLoop]; simp)
  | succ n ih =>
    intro vials qty r h
    rw [PourAction.applyLoop] at h
    dsimp only at h
    cases hlast : (vials.getD from_index []).getLast? with
    | none =>
      rw [hlast] at h
      dsimp only at h
      obtain rfl : (vials, qty) = r := by injection h
      rfl
    | some c =>
      rw [hlast] at h
      dsimp only at h
      by_cases hcond : c = color ∧
          (((vials.getD to_index []).length : Int)) < vial_size
      · rw [if_pos hcond] at h
        have := ih _ (qty + 1) r h
        simpa [List.length_set] using this
      · rw [if_neg hcond] at h
        obtain rfl : (vials, qty) = r := by injection h
        rfl

theorem undoLoop_snoc (from_index to_index : Nat) (n : Nat) :
    ∀ (vials : List (List Int)),
      PourAction.undoLoop from_index to_index (n + 1) vials =
        (PourAction.undoLoop from_index to_index n vials).bind
          (PourAction.undoLoop from_index to_index 1) := by
  induction n with
  | zero =>
    intro vials
    rw [PourAction.undoLoop]
    simp
  | succ m ih =>
    intro vials
    rw [PourAction.undoLoop]
    conv_rhs => rw [PourAction.undoLoop]
    dsimp only
    cases htl : (vials.getD to_index []).getLast? with
    | none => simp
    | some c =>
      dsimp only
      exact ih _

theorem applyLoop_undo (vial_size : Int) (from_index to_index : Nat)
    (color : Int) (hne : from_index ≠ to_index) (fuel : Nat) :
    ∀ (vials : List (List Int)) (qty : Nat) (r : List (List Int) × Nat),
      from_index < vials.length → to_index < vials.length →
      PourAction.applyLoop vial_size from_index to_index color fuel vials qty
        = some r →
      PourAction.undoLoop from_index to_index (r.2 - qty) r.1 = some vials := by
  induction fuel with
  | zero =>
    intro vials qty r hf ht h
    exact absurd h (by rw [PourAction.applyLoop]; simp)
  | succ n ih =>
    intro vials qty r hf ht h
    rw [PourAction.applyLoop] at h
    dsimp only at h
    cases hlast : (vials.getD from_index []).getLast? with
    | none =>
      rw [hlast] at h
      dsimp only at h
      obtain rfl : (vials, qty) = r := by injection h
      rw [Nat.sub_self]
      rfl
    | some c =>
      rw [hlast] at h
      dsimp only at h
      by_cases hcond : c = color ∧
          (((vials.getD to_index []).length : Int)) < vial_size
      · rw [if_pos hcond] at h
        set fv := vials.getD from_index [] with hfv
        set tv := vials.getD to_index [] with htv
        set vials1 := vials.set to_index (tv ++ [c]) with hv1
        have hget1 : vials1.getD from_index [] = fv := by
          rw [hv1, hfv]
          exact getD_set_ne vials _ _ (Ne.symm hne)
        set vials2 := vials1.set from_index ((vials1.getD from_index []).dropLast)
          with hv2
        have hf2 : from_index < vials2.length := by
          rw [hv2, hv1]; simpa [List.length_set] using hf
        have ht2 : to_index < vials2.length := by
          rw [hv2, hv1]; simpa [List.length_set] using ht
        have hrec := ih vials2 (qty + 1) r hf2 ht2 h
        have hqle := applyLoop_qty_le vial_size from_index to_index color n
          vials2 (qty + 1) r h
        have hq : r.2 - qty = (r.2 - (qty + 1)) + 1 := by omega
        rw [hq, undoLoop_snoc, hrec]
        show PourAction.undoLoop from_index to_index 1 vials2 = some vials
        rw [PourAction.undoLoop]
        dsimp only
        have h2to : vials2.getD to_index [] = tv ++ [c] := by
          rw [hv2, getD_set_ne vials1 _ _ hne, hv1]
          exact getD_set_self vials to_index (tv ++ [c]) [] ht
        have h2from : vials2.getD from_index [] = fv.dropLast := by
          rw [hv2, getD_set_self vials1 from_index _ []
            (by rw [hv1]; simpa [List.length_set] using hf), hget1]
        rw [h2to, List.getLast?_concat]
        dsimp only
        rw [List.dropLast_concat]
        have hback : ((vials2.set to_index tv).getD from_index []) ++ [c] = fv := by
          rw [getD_set_ne vials2 _ _ (Ne.symm hne), h2from]
          exact dropLast_append_getLast?_eq fv c hlast
        rw [hback]
        have hfinal : (vials2.set to_index tv).set from_index fv = vials := by
          rw [hv2, List.set_comm _ _ _ hne, List.set_set, hv1, List.set_set,
            htv, set_getD_self vials to_index [] ht, hfv,
            set_getD_self vials from_index [] hf]
        rw [hfinal, PourAction.undoLoop]
      · rw [if_neg hcond] at h
        obtain rfl : (vials, qty) = r := by injection h
        rw [Nat.sub_self]
        rfl

/-- Core of C2, reused by the history arguments: a fresh pour whose
`apply` returned true is exactly reverted by the returned action's
`undo`.  The distinctness of the indices is derived, not assumed: an
aliased self-pour can never return true (it returns false or never
returns). -/
theorem pourApply_true_restores (vial_size : Int) (from_index to_index : Nat)
    (vials : List (List Int)) (p2 : PourAction) (vials2 : List (List Int))
    (h : PourAction.apply ⟨from_index, to_index, 0, false⟩ vial_size vials =
      some (true, p2, vials2)) :
    PourAction.undo p2 vials2 = some vials := by
  rw [PourAction.apply] at h
  dsimp only at h
  by_cases hbounds : from_index < vials.length ∧ to_index < vials.length
  case neg => rw [if_neg hbounds] at h; exact absurd h (by simp)
  rw [if_pos hbounds] at h
  obtain ⟨hf, ht⟩ := hbounds
  cases hlast : (vials.getD from_index []).getLast? with
  | none =>
    rw [hlast] at h
    dsimp only at h
    exact absurd h (by simp)
  | some color =>
    rw [hlast] at h
    dsimp only at h
    by_cases hguard : (match (vials.getD to_index []).getLast? with
        | some t => decide (t ≠ color)
        | none => false) = true
    · rw [if_pos hguard] at h
      exact absurd h (by simp)
    · rw [if_neg hguard] at h
      cases happly : PourAction.applyLoop vial_size from_index to_index color
          ((vials.getD from_index []).length + 1) vials 0 with
      | none => rw [happly] at h; exact absurd h (by simp)
      | some r =>
        rw [happly] at h
        simp only [Option.map_some'] at h
        rw [Option.some.injEq, Prod.mk.injEq, Prod.mk.injEq] at h
        obtain ⟨hq, hp2, hv2⟩ := h
        have hne : from_index ≠ to_index := by
          intro heq
          subst heq
          by_cases hcap : ((vials.getD from_index []).length : Int) < vial_size
          · rw [applyLoop_self_diverges vial_size from_index color _ vials 0
              hlast hcap] at happly
            exact absurd happly (by simp)
          · rw [PourAction.applyLoop] at happly
            dsimp only at happly
            rw [hlast] at happly
            dsimp only at happly
            rw [if_neg (fun hcontra => hcap hcontra.2)] at happly
            obtain rfl : (vials, 0) = r := by injection happly
            simp at hq
        subst hv2
        subst hp2
        rw [PourAction.undo]
        dsimp only
        rw [if_neg (by simp)]
        have hlen := applyLoop_length vial_size from_index to_index color _
          vials 0 r happly
        rw [if_pos ⟨by rw [hlen]; exact hf, by rw [hlen]; exact ht⟩]
        have hundo := applyLoop_undo vial_size from_index to_index color hne _
          vials 0 r hf ht happly
        simpa using hundo

/-! ### Claims C2 and C10 -/

/-- C2: for every board and every fresh Pour action whose `apply`
returned true, immediately invoking that action's `undo` restores every
vial's contents to exactly the sequence held before the apply. -/
theorem pour_apply_undo_roundtrip (vial_size : Int) (from_index to_index : Nat)
    (vials : List (List Int)) (p2 : PourAction) (vials2 : List (List Int))
    (h : PourAction.apply ⟨from_index, to_index, 0, false⟩ vial_size vials =
      some (true, p2, vials2)) :
    PourAction.undo p2 vials2 = some vials :=
  pourApply_true_restores vial_size from_index to_index vials p2 vials2 h

/-- Witness for C2 at a concrete board: pouring vial 0 of `[[1,1],[]]`
(capacity 4) into vial 1 moves both units; undo restores the board. -/
theorem pour_apply_undo_roundtrip_witness :
    PourAction.undo ⟨0, 1, 2, true⟩ [[], [1, 1]] = some [[1, 1], []] :=
  pour_apply_undo_roundtrip 4 0 1 [[1, 1], []] ⟨0, 1, 2, true⟩ [[], [1, 1]]
    (by decide)

/-- Core of C10, reused by the history arguments: a fresh pour whose
`apply` returned false changed nothing, is marked applied with zero
recorded quantity, and its `undo` succeeds without changing anything. -/
theorem pourApply_false_state (vial_size : Int)
    (from_index to_index : Nat) (vials : List (List Int))
    (p2 : PourAction) (vials2 : List (List Int))
    (h : PourAction.apply ⟨from_index, to_index, 0, false⟩ vial_size vials =
      some (false, p2, vials2)) :
    vials2 = vials ∧ p2 = ⟨from_index, to_index, 0, true⟩ ∧
      PourAction.undo p2 vials2 = some vials2 := by
  rw [PourAction.apply] at h
  dsimp only at h
  by_cases hbounds : from_index < vials.length ∧ to_index < vials.length
  case neg => rw [if_neg hbounds] at h; exact absurd h (by simp)
  rw [if_pos hbounds] at h
  cases hlast : (vials.getD from_index []).getLast? with
  | none =>
    rw [hlast] at h
    dsimp only at h
    rw [Option.some.injEq, Prod.mk.injEq, Prod.mk.injEq] at h
    obtain ⟨-, hp2, hv2⟩ := h
    subst hv2
    subst hp2
    refine ⟨rfl, rfl, ?_⟩
    rw [PourAction.undo]
    dsimp only
    rw [if_neg (by simp), if_pos hbounds]
    rfl
  | some color =>
    rw [hlast] at h
    dsimp only at h
    by_cases hguard : (match (vials.getD to_index []).getLast? with
        | some t => decide (t ≠ color)
        | none => false) = true
    · rw [if_pos hguard] at h
      rw [Option.some.injEq, Prod.mk.injEq, Prod.mk.injEq] at h
      obtain ⟨-, hp2, hv2⟩ := h
      subst hv2
      subst hp2
      refine ⟨rfl, rfl, ?_⟩
      rw [PourAction.undo]
      dsimp only
      rw [if_neg (by simp), if_pos hbounds]
      rfl
    · rw [if_neg hguard] at h
      cases happly : PourAction.applyLoop vial_size from_index to_index color
          ((vials.getD from_index []).length + 1) vials 0 with
      | none => rw [happly] at h; exact absurd h (by simp)
      | some r =>
        rw [happly] at h
        simp only [Option.map_some'] at h
        rw [Option.some.injEq, Prod.mk.injEq, Prod.mk.injEq] at h
        obtain ⟨hq, hp2, hv2⟩ := h
        have hq0 : r.2 = 0 :=
          Nat.le_zero.mp (Nat.not_lt.mp (of_decide_eq_false hq))
        have hunch : r.1 = vials :=
          applyLoop_unchanged_of_qty_eq vial_size from_index to_index color _
            vials 0 r happly hq0
        subst hv2
        subst hp2
        refine ⟨hunch, by rw [hq0], ?_⟩
        rw [PourAction.undo]
        dsimp only
        rw [if_neg (by simp), if_pos (by rw [hunch]; exact hbounds), hq0]
        rfl

/-- C10: if a fresh Pour action's `apply` was invoked and returned
false, the board is unchanged, the action is marked applied (because
`apply` sets `_applied` before performing any checks) with zero
recorded quantity, and a subsequent `undo` does not raise and leaves
the board unchanged. -/
theorem pour_apply_false_then_undo_harmless (vial_size : Int)
    (from_index to_index : Nat) (vials : List (List Int))
    (p2 : PourAction) (vials2 : List (List Int))
    (h : PourAction.apply ⟨from_index, to_index, 0, false⟩ vial_size vials =
      some (false, p2, vials2)) :
    vials2 = vials ∧ p2 = ⟨from_index, to_index, 0, true⟩ ∧
      PourAction.undo p2 vials2 = some vials2 :=
  pourApply_false_state vial_size from_index to_index vials p2 vials2 h

/-- Witness for C10 at a concrete board: pouring vial 0 of `[[1],[2]]`
onto the unlike-colored vial 1 returns false; undo then raises nothing
and changes nothing. -/
theorem pour_apply_false_then_undo_harmless_witness :
    ([[1], [2]] : List (List Int)) = [[1], [2]] ∧
      (⟨0, 1, 0, true⟩ : PourAction) = ⟨0, 1, 0, true⟩ ∧
      PourAction.undo ⟨0, 1, 0, true⟩ [[1], [2]] = some [[1], [2]] :=
  pour_apply_false_then_undo_harmless 5 0 1 [[1], [2]] ⟨0, 1, 0, true⟩
    [[1], [2]] (by decide)

/-! ### Claim C3: LIFO undo of whole action sequences -/

theorem addEmpty_undo_concat (vials : List (List Int)) :
    AddEmptyVialAction.undo (vials ++ [[]]) = some vials := by
  cases vials with
  | nil => rfl
  | cons x xs =>
    rw [AddEmptyVialAction.undo]
    · rw [List.dropLast_concat]
    · simp

theorem apply_action_vial_size (b : Board) (a : Action) (b2 : Board)
    (h : b.apply_action a = some b2) : b2.vial_size = b.vial_size := by
  rw [Board.apply_action] at h
  cases happ : a.apply b.vial_size b.vials with
  | none => rw [happ] at h; exact absurd h (by simp)
  | some r =>
    rw [happ] at h
    simp only [Option.map_some'] at h
    by_cases hr : r.1 = true
    · rw [if_pos hr] at h
      obtain rfl : (⟨b.vial_size, r.2.2, r.2.1 :: b.history⟩ : Board) = b2 := by
        injection h
      rfl
    · rw [if_neg hr] at h
      obtain rfl : (⟨b.vial_size, r.2.2, b.history⟩ : Board) = b2 := by
        injection h
      rfl

theorem runOp_vial_size (b : Board) (op : GameOp) (b2 : Board)
    (h : runOp b op = some b2) : b2.vial_size = b.vial_size := by
  cases op with
  | pourOp i j =>
    rw [runOp, Board.pour] at h
    exact apply_action_vial_size b _ b2 h
  | addOp =>
    rw [runOp, Board.add_empty_vial] at h
    exact apply_action_vial_size b _ b2 h

theorem runOp_histOk (b : Board) (op : GameOp) (b2 : Board)
    (target : List (List Int)) (h : runOp b op = some b2)
    (hok : HistOk b.history b.vials target) :
    HistOk b2.history b2.vials target := by
  cases op with
  | addOp =>
    rw [runOp, Board.add_empty_vial, Board.apply_action] at h
    simp only [Action.apply, AddEmptyVialAction.apply, Option.map_some',
      if_true] at h
    obtain rfl : (⟨b.vial_size, b.vials ++ [[]],
        .add_empty_vial :: b.history⟩ : Board) = b2 := by injection h
    rw [HistOk]
    dsimp only
    rw [Action.undo, addEmpty_undo_concat]
    exact hok
  | pourOp i j =>
    rw [runOp, Board.pour, Board.apply_action, Action.apply] at h
    cases happ : PourAction.apply ⟨i, j, 0, false⟩ b.vial_size b.vials with
    | none => rw [happ] at h; exact absurd h (by simp)
    | some r =>
      rw [happ] at h
      simp only [Option.map_some'] at h
      by_cases hr : r.1 = true
      · rw [if_pos hr] at h
        obtain rfl : (⟨b.vial_size, r.2.2, .pour r.2.1 :: b.history⟩ : Board)
            = b2 := by injection h
        have hr' : r = (true, r.2.1, r.2.2) := by rw [← hr]
        rw [hr'] at happ
        have hrestore := pourApply_true_restores b.vial_size i j b.vials
          r.2.1 r.2.2 happ
        rw [HistOk]
        dsimp only
        rw [Action.undo, hrestore]
        exact hok
      · rw [if_neg hr] at h
        obtain rfl : (⟨b.vial_size, r.2.2, b.history⟩ : Board) = b2 := by
          injection h
        have hrfalse : r.1 = false := by
          cases hb : r.1 with
          | true => exact absurd hb hr
          | false => rfl
        have hr' : r = (false, r.2.1, r.2.2) := by rw [← hrfalse]
        rw [hr'] at happ
        obtain ⟨hunch, -, -⟩ := pourApply_false_state b.vial_size i j b.vials
          r.2.1 r.2.2 happ
        dsimp only
        rw [hunch]
        exact hok

theorem runOps_histOk (ops : List GameOp) :
    ∀ (b b2 : Board) (target : List (List Int)),
      runOps b ops = some b2 → HistOk b.history b.vials target →
      HistOk b2.history b2.vials target ∧ b2.vial_size = b.vial_size := by
  induction ops with
  | nil =>
    intro b b2 target h hok
    obtain rfl : b = b2 := by rw [runOps] at h; injection h
    exact ⟨hok, rfl⟩
  | cons op rest ih =>
    intro b b2 target h hok
    rw [runOps] at h
    cases hop : runOp b op with
    | none => rw [hop] at h; exact absurd h (by simp)
    | some bmid =>
      rw [hop] at h
      simp only [Option.some_bind] at h
      have h1 := runOp_histOk b op bmid target hop hok
      have hv := runOp_vial_size b op bmid hop
      obtain ⟨h2, hv2⟩ := ih bmid b2 target h h1
      exact ⟨h2, by rw [hv2, hv]⟩

theorem undoAllN_of_histOk (hist : List Action) :
    ∀ (vials target : List (List Int)) (vs : Int),
      HistOk hist vials target →
      undoAllN hist.length ⟨vs, vials, hist⟩ = some ⟨vs, target, []⟩ := by
  induction hist with
  | nil =>
    intro vials target vs h
    have hvt : vials = target := h
    subst hvt
    rfl
  | cons a rest ih =>
    intro vials target vs h
    rw [HistOk] at h
    cases hundo : a.undo vials with
    | none => rw [hundo] at h; exact h.elim
    | some v1 =>
      rw [hundo] at h
      simp only [List.length_cons]
      rw [undoAllN]
      dsimp only
      rw [Board.undo]
      dsimp only
      rw [hundo]
      simp only [Option.map_some', Option.some_bind]
      exact ih v1 target vs h

/-- C3: for every initial board (empty history) and every finite
sequence of `Board.pour` / `Board.add_empty_vial` calls that all return,
undoing until the history is empty restores the vials (and the
vial_size) to exactly the state before any of the actions were
applied. -/
theorem board_undo_all_restores (b0 : Board) (ops : List GameOp) (b1 : Board)
    (h0 : b0.history = []) (h : runOps b0 ops = some b1) :
    undoAll b1 = some ⟨b0.vial_size, b0.vials, []⟩ ∧
      b1.vial_size = b0.vial_size := by
  have hok0 : HistOk b0.history b0.vials b0.vials := by
    rw [h0]
    exact rfl
  obtain ⟨hok1, hvs1⟩ := runOps_histOk ops b0 b1 b0.vials h hok0
  have hres := undoAllN_of_histOk b1.history b1.vials b0.vials b1.vial_size hok1
  refine ⟨?_, hvs1⟩
  rw [undoAll, hres, hvs1]

/-- Witness for C3: from board `vial_size=4, vials=[[1,1],[]]` apply
pour(0,1) then add an empty vial; undoing everything restores the
original vials. -/
theorem board_undo_all_restores_witness :
    undoAll ⟨4, [[], [1, 1], []], [.add_empty_vial, .pour ⟨0, 1, 2, true⟩]⟩ =
      some ⟨4, [[1, 1], []], []⟩ ∧ (4 : Int) = 4 :=
  board_undo_all_restores ⟨4, [[1, 1], []], []⟩ [.pourOp 0 1, .addOp]
    ⟨4, [[], [1, 1], []], [.add_empty_vial, .pour ⟨0, 1, 2, true⟩]⟩ rfl
    (by decide)

/-! ### Claim C4: the capacity invariant -/

theorem getD_mem {α : Type _} (l : List α) (i : Nat) (d : α)
    (h : i < l.length) : l.getD i d ∈ l := by
  induction l generalizing i with
  | nil => simp at h
  | cons hd tl ih =>
    cases i with
    | zero => simp [List.getD]
    | succ j =>
      simp only [List.getD, List.getElem?_cons_succ]
      exact List.mem_cons_of_mem hd (ih j (by simpa using h))

theorem invV_set (vial_size : Int) (vials : List (List Int)) (i : Nat)
    (vnew : List Int) (hinv : InvV vial_size vials)
    (hnew : (vnew.length : Int) ≤ vial_size) :
    InvV vial_size (vials.set i vnew) := by
  intro v hv
  rcases List.mem_or_eq_of_mem_set hv with h1 | h2
  · exact hinv v h1
  · rw [h2]
    exact hnew

theorem applyLoop_invV (vial_size : Int) (from_index to_index : Nat)
    (color : Int) (fuel : Nat) :
    ∀ (vials : List (List Int)) (qty : Nat) (r : List (List Int) × Nat),
      PourAction.applyLoop vial_size from_index to_index color fuel vials qty
        = some r → InvV vial_size vials → InvV vial_size r.1 := by
  induction fuel with
  | zero =>
    intro vials qty r h
    exact absurd h (by rw [PourAction.applyLoop]; simp)
  | succ n ih =>
    intro vials qty r h hinv
    rw [PourAction.applyLoop] at h
    dsimp only at h
    cases hlast : (vials.getD from_index []).getLast? with
    | none =>
      rw [hlast] at h
      dsimp only at h
      obtain rfl : (vials, qty) = r := by injection h
      exact hinv
    | some c =>
      rw [hlast] at h
      dsimp only at h
      by_cases hcond : c = color ∧
          (((vials.getD to_index []).length : Int)) < vial_size
      · rw [if_pos hcond] at h
        refine ih _ (qty + 1) r h ?_
        have hfr : from_index < vials.length := by
          apply lt_length_of_getD_ne vials from_index []
          intro hcontra
          rw [hcontra] at hlast
          simp at hlast
        have hinv1 : InvV vial_size
            (vials.set to_index ((vials.getD to_index []) ++ [c])) := by
          apply invV_set vial_size vials to_index _ hinv
          simp only [List.length_append, List.length_singleton]
          have := hcond.2
          push_cast
          omega
        apply invV_set vial_size _ from_index _ hinv1
        have hfr1 : from_index <
            (vials.set to_index ((vials.getD to_index []) ++ [c])).length := by
          rwa [List.length_set]
        have hmem := getD_mem _ from_index [] hfr1
        have hle := hinv1 _ hmem
        have hdl : (((vials.set to_index ((vials.getD to_index []) ++ [c])).getD
            from_index []).dropLast).length ≤
            ((vials.set to_index ((vials.getD to_index []) ++ [c])).getD
              from_index []).length := by
          rw [List.length_dropLast]
          omega
        omega
      · rw [if_neg hcond] at h
        obtain rfl : (vials, qty) = r := by injection h
        exact hinv

theorem pourApply_invV (vial_size : Int) (p : PourAction)
    (vials : List (List Int)) (r : Bool × PourAction × List (List Int))
    (h : p.apply vial_size vials = some r) (hinv : InvV vial_size vials) :
    InvV vial_size r.2.2 := by
  rw [PourAction.apply] at h
  dsimp only at h
  by_cases hbounds : p.from_index < vials.length ∧ p.to_index < vials.length
  case neg => rw [if_neg hbounds] at h; exact absurd h (by simp)
  rw [if_pos hbounds] at h
  cases hlast : (vials.getD p.from_index []).getLast? with
  | none =>
    rw [hlast] at h
    dsimp only at h
    obtain rfl : (false, { p with applied := true }, vials) = r := by injection h
    exact hinv
  | some color =>
    rw [hlast] at h
    dsimp only at h
    by_cases hguard : (match (vials.getD p.to_index []).getLast? with
        | some t => decide (t ≠ color)
        | none => false) = true
    · rw [if_pos hguard] at h
      obtain rfl : (false, { p with applied := true }, vials) = r := by injection h
      exact hinv
    · rw [if_neg hguard] at h
      cases happly : PourAction.applyLoop vial_size p.from_index p.to_index color
          ((vials.getD p.from_index []).length + 1) vials p.qty_moved with
      | none => rw [happly] at h; exact absurd h (by simp)
      | some r2 =>
        rw [happly] at h
        simp only [Option.map_some'] at h
        obtain rfl : (decide (0 < r2.2),
            { p with qty_moved := r2.2, applied := true }, r2.1) = r := by
          injection h
        exact applyLoop_invV vial_size p.from_index p.to_index color _ vials
          p.qty_moved r2 happly hinv

theorem histInv_invV (vial_size : Int) (hist : List Action)
    (vials : List (List Int)) (h : HistInv vial_size hist vials) :
    InvV vial_size vials := by
  cases hist with
  | nil => exact h
  | cons a rest => exact h.1

theorem runUserOp_histInv (b : Board) (op : UserOp) (b2 : Board)
    (hvs : 0 ≤ b.vial_size) (h : runUserOp b op = some b2)
    (hinv : HistInv b.vial_size b.history b.vials) :
    HistInv b.vial_size b2.history b2.vials ∧ b2.vial_size = b.vial_size := by
  cases op with
  | addU =>
    rw [runUserOp, Board.add_empty_vial, Board.apply_action] at h
    simp only [Action.apply, AddEmptyVialAction.apply, Option.map_some',
      if_true] at h
    obtain rfl : (⟨b.vial_size, b.vials ++ [[]],
        .add_empty_vial :: b.history⟩ : Board) = b2 := by injection h
    refine ⟨⟨?_, ?_⟩, rfl⟩
    · intro v hv
      rcases List.mem_append.mp hv with h1 | h2
      · exact histInv_invV _ _ _ hinv v h1
      · rw [List.mem_singleton.mp h2]
        simpa using hvs
    · dsimp only
      rw [Action.undo, addEmpty_undo_concat]
      exact hinv
  | undoU =>
    rw [runUserOp, Board.undo] at h
    cases hh : b.history with
    | nil =>
      rw [hh] at h
      dsimp only at h
      obtain rfl : b = b2 := by injection h
      exact ⟨hinv, rfl⟩
    | cons a rest =>
      rw [hh] at h
      dsimp only at h
      rw [hh] at hinv
      rw [HistInv] at hinv
      obtain ⟨-, hmatch⟩ := hinv
      cases hundo : a.undo b.vials with
      | none => rw [hundo] at hmatch; exact hmatch.elim
      | some v1 =>
        rw [hundo] at h hmatch
        simp only [Option.map_some'] at h
        obtain rfl : (⟨b.vial_size, v1, rest⟩ : Board) = b2 := by injection h
        exact ⟨hmatch, rfl⟩
  | pourU i j =>
    rw [runUserOp, Board.pour, Board.apply_action, Action.apply] at h
    cases happ : PourAction.apply ⟨i, j, 0, false⟩ b.vial_size b.vials with
    | none => rw [happ] at h; exact absurd h (by simp)
    | some r =>
      rw [happ] at h
      simp only [Option.map_some'] at h
      by_cases hr : r.1 = true
      · rw [if_pos hr] at h
        obtain rfl : (⟨b.vial_size, r.2.2, .pour r.2.1 :: b.history⟩ : Board)
            = b2 := by injection h
        have hr' : r = (true, r.2.1, r.2.2) := by rw [← hr]
        rw [hr'] at happ
        refine ⟨⟨pourApply_invV b.vial_size _ b.vials (true, r.2.1, r.2.2) happ
          (histInv_invV _ _ _ hinv), ?_⟩, rfl⟩
        dsimp only
        rw [Action.undo, pourApply_true_restores b.vial_size i j b.vials
          r.2.1 r.2.2 happ]
        exact hinv
      · rw [if_neg hr] at h
        obtain rfl : (⟨b.vial_size, r.2.2, b.history⟩ : Board) = b2 := by
          injection h
        have hrfalse : r.1 = false := by
          cases hb : r.1 with
          | true => exact absurd hb hr
          | false => rfl
        have hr' : r = (false, r.2.1, r.2.2) := by rw [← hrfalse]
        rw [hr'] at happ
        obtain ⟨hunch, -, -⟩ := pourApply_false_state b.vial_size i j b.vials
          r.2.1 r.2.2 happ
        dsimp only
        rw [hunch]
        exact ⟨hinv, rfl⟩

theorem runUserOps_histInv (ops : List UserOp) :
    ∀ (b b2 : Board), 0 ≤ b.vial_size → runUserOps b ops = some b2 →
      HistInv b.vial_size b.history b.vials →
      HistInv b.vial_size b2.history b2.vials ∧ b2.vial_size = b.vial_size := by
  induction ops with
  | nil =>
    intro b b2 hvs h hinv
    obtain rfl : b = b2 := by rw [runUserOps] at h; injection h
    exact ⟨hinv, rfl⟩
  | cons op rest ih =>
    intro b b2 hvs h hinv
    rw [runUserOps] at h
    cases hop : runUserOp b op with
    | none => rw [hop] at h; exact absurd h (by simp)
    | some bmid =>
      rw [hop] at h
      simp only [Option.some_bind] at h
      obtain ⟨h1, hv1⟩ := runUserOp_histInv b op bmid hvs hop hinv
      rw [← hv1] at h1 hvs
      obtain ⟨h2, hv2⟩ := ih bmid b2 hvs h h1
      rw [hv1] at h2 hv2
      exact ⟨h2, hv2⟩

/-- C4 (amended): for every board with NONNEGATIVE `vial_size` and
empty initial history whose vials all satisfy the capacity invariant,
every sequence of the public operations (`Board.pour`,
`Board.add_empty_vial`, `Board.undo`) that returns preserves the
invariant that every vial's length is at most `vial_size`. -/
theorem board_ops_preserve_capacity (b0 : Board) (ops : List UserOp)
    (b1 : Board) (hvs : 0 ≤ b0.vial_size) (h0 : b0.history = [])
    (hinv : InvV b0.vial_size b0.vials) (h : runUserOps b0 ops = some b1) :
    InvV b1.vial_size b1.vials ∧ b1.vial_size = b0.vial_size := by
  have hinv0 : HistInv b0.vial_size b0.history b0.vials := by
    rw [h0]
    exact hinv
  obtain ⟨h1, hv1⟩ := runUserOps_histInv ops b0 b1 hvs h hinv0
  rw [← hv1] at h1
  exact ⟨histInv_invV _ _ _ h1, hv1⟩

/-- Witness for C4's amended theorem: board `vial_size=2, vials=[[5]]`;
add a vial, pour 0 into 1, then undo; the invariant still holds. -/
theorem board_ops_preserve_capacity_witness :
    InvV 2 [[5], []] ∧ (2 : Int) = 2 :=
  board_ops_preserve_capacity ⟨2, [[5]], []⟩ [.addU, .pourU 0 1, .undoU]
    ⟨2, [[5], []], [.add_empty_vial]⟩ (by decide) rfl (by simp [InvV])
    (by decide)

/-- C4, as stated, is false: the claim quantifies over every board
satisfying the invariant, but a board with a negative `vial_size` (the
loader never validates `vial_size`, so such boards are loadable) and no
vials satisfies the invariant vacuously, yet `Board.add_empty_vial`
appends an empty vial whose length 0 exceeds `vial_size = -1`. -/
theorem add_empty_vial_negative_capacity_breaks_invariant :
    InvV (-1) ([] : List (List Int)) ∧
    Board.add_empty_vial ⟨-1, [], []⟩ = some ⟨-1, [[]], [.add_empty_vial]⟩ ∧
    ¬ InvV (-1) [[]] := by
  refine ⟨?_, rfl, ?_⟩
  · intro v hv
    exact absurd hv (List.not_mem_nil v)
  · intro h
    have := h [] (by simp)
    simp at this

/-! ### Claim C9: conservation of units -/

theorem flatten_set_perm (vials : List (List Int)) (i : Nat) (a : List Int)
    (h : i < vials.length) :
    ((vials.set i a).flatten ++ vials.getD i []).Perm (vials.flatten ++ a) := by
  induction vials generalizing i with
  | nil => simp at h
  | cons hd tl ih =>
    cases i with
    | zero =>
      simp only [List.set_cons_zero, List.getD_cons_zero, List.flatten_cons]
      rw [List.append_assoc hd tl.flatten a]
      exact List.perm_append_comm.trans
        (List.Perm.append_left hd List.perm_append_comm)
    | succ j =>
      simp only [List.set_cons_succ, List.getD_cons_succ, List.flatten_cons]
      rw [List.append_assoc hd ((tl.set j a).flatten) (tl.getD j []),
        List.append_assoc hd tl.flatten a]
      exact List.Perm.append_left hd (ih j (by simpa using h))

theorem unitsOf_set (vials : List (List Int)) (i : Nat) (a : List Int)
    (h : i < vials.length) :
    unitsOf (vials.set i a) + ((vials.getD i [] : List Int) : Multiset Int)
      = unitsOf vials + (a : Multiset Int) := by
  calc unitsOf (vials.set i a) + ((vials.getD i [] : List Int) : Multiset Int)
      = (((vials.set i a).flatten ++ vials.getD i [] : List Int) : Multiset Int) :=
        Multiset.coe_add _ _
    _ = ((vials.flatten ++ a : List Int) : Multiset Int) :=
        Multiset.coe_eq_coe.mpr (flatten_set_perm vials i a h)
    _ = unitsOf vials + (a : Multiset Int) := (Multiset.coe_add _ _).symm

theorem coe_eq_dropLast_add (l : List Int) (c : Int)
    (h : l.getLast? = some c) :
    (l : Multiset Int) = (l.dropLast : Multiset Int) + ([c] : List Int) := by
  conv_lhs => rw [← dropLast_append_getLast?_eq l c h]
  rw [← Multiset.coe_add]

theorem applyLoop_units (vial_size : Int) (from_index to_index : Nat)
    (color : Int) (fuel : Nat) :
    ∀ (vials : List (List Int)) (qty : Nat) (r : List (List Int) × Nat),
      to_index < vials.length →
      PourAction.applyLoop vial_size from_index to_index color fuel vials qty
        = some r → unitsOf r.1 = unitsOf vials := by
  induction fuel with
  | zero =>
    intro vials qty r ht h
    exact absurd h (by rw [PourAction.applyLoop]; simp)
  | succ n ih =>
    intro vials qty r ht h
    rw [PourAction.applyLoop] at h
    dsimp only at h
    cases hlast : (vials.getD from_index []).getLast? with
    | none =>
      rw [hlast] at h
      dsimp only at h
      obtain rfl : (vials, qty) = r := by injection h
      rfl
    | some c =>
      rw [hlast] at h
      dsimp only at h
      by_cases hcond : c = color ∧
          (((vials.getD to_index []).length : Int)) < vial_size
      · rw [if_pos hcond] at h
        have hfr : from_index < vials.length := by
          apply lt_length_of_getD_ne vials from_index []
          intro hcontra
          rw [hcontra] at hlast
          simp at hlast
        have hfr1 : from_index <
            (vials.set to_index ((vials.getD to_index []) ++ [c])).length := by
          rwa [List.length_set]
        have ht2 : to_index <
            ((vials.set to_index ((vials.getD to_index []) ++ [c])).set from_index
              (((vials.set to_index ((vials.getD to_index []) ++ [c])).getD
                from_index []).dropLast)).length := by
          simp only [List.length_set]
          exact ht
        have hstep := ih _ (qty + 1) r ht2 h
        have e1 := unitsOf_set vials to_index ((vials.getD to_index []) ++ [c]) ht
        have hU1 : unitsOf (vials.set to_index ((vials.getD to_index []) ++ [c]))
            = unitsOf vials + (([c] : List Int) : Multiset Int) := by
          have e1' : unitsOf (vials.set to_index ((vials.getD to_index []) ++ [c]))
              + ((vials.getD to_index [] : List Int) : Multiset Int)
              = (unitsOf vials + (([c] : List Int) : Multiset Int))
                + ((vials.getD to_index [] : List Int) : Multiset Int) := by
            rw [e1, ← Multiset.coe_add]
            abel
          exact add_right_cancel e1'
        have hlast1 : ((vials.set to_index ((vials.getD to_index []) ++ [c])).getD
            from_index []).getLast? = some c := by
          by_cases heq : from_index = to_index
          · rw [heq, getD_set_self vials to_index ((vials.getD to_index []) ++ [c])
              [] ht]
            exact List.getLast?_concat _
          · rw [getD_set_ne vials _ _ (fun hc => heq hc.symm)]
            exact hlast
        have e2 := unitsOf_set (vials.set to_index ((vials.getD to_index []) ++ [c]))
          from_index (((vials.set to_index ((vials.getD to_index []) ++ [c])).getD
            from_index []).dropLast) hfr1
        have hU2 : unitsOf ((vials.set to_index ((vials.getD to_index []) ++ [c])).set
            from_index (((vials.set to_index ((vials.getD to_index []) ++ [c])).getD
              from_index []).dropLast)) = unitsOf vials := by
          have e2' : unitsOf ((vials.set to_index ((vials.getD to_index []) ++ [c])).set
              from_index (((vials.set to_index ((vials.getD to_index []) ++ [c])).getD
                from_index []).dropLast))
              + (((((vials.set to_index ((vials.getD to_index []) ++ [c])).getD
                  from_index []).dropLast : List Int) : Multiset Int)
                + (([c] : List Int) : Multiset Int))
              = unitsOf vials
              + (((((vials.set to_index ((vials.getD to_index []) ++ [c])).getD
                  from_index []).dropLast : List Int) : Multiset Int)
                + (([c] : List Int) : Multiset Int)) := by
            calc unitsOf ((vials.set to_index ((vials.getD to_index []) ++ [c])).set
                  from_index (((vials.set to_index ((vials.getD to_index [])
                    ++ [c])).getD from_index []).dropLast))
                + (((((vials.set to_index ((vials.getD to_index []) ++ [c])).getD
                    from_index []).dropLast : List Int) : Multiset Int)
                  + (([c] : List Int) : Multiset Int))
                = unitsOf ((vials.set to_index ((vials.getD to_index []) ++ [c])).set
                  from_index (((vials.set to_index ((vials.getD to_index [])
                    ++ [c])).getD from_index []).dropLast))
                + (((vials.set to_index ((vials.getD to_index []) ++ [c])).getD
                    from_index [] : List Int) : Multiset Int) := by
                  rw [← coe_eq_dropLast_add _ c hlast1]
              _ = unitsOf (vials.set to_index ((vials.getD to_index []) ++ [c]))
                  + ((((vials.set to_index ((vials.getD to_index []) ++ [c])).getD
                      from_index []).dropLast : List Int) : Multiset Int) := e2
              _ = unitsOf vials
                  + (((((vials.set to_index ((vials.getD to_index []) ++ [c])).getD
                      from_index []).dropLast : List Int) : Multiset Int)
                    + (([c] : List Int) : Multiset Int)) := by
                  rw [hU1]
                  abel
          exact add_right_cancel e2'
        rw [hstep, hU2]
      · rw [if_neg hcond] at h
        obtain rfl : (vials, qty) = r := by injection h
        rfl

theorem applyLoop_getD_other (vial_size : Int) (from_index to_index : Nat)
    (color : Int) (fuel : Nat) :
    ∀ (vials : List (List Int)) (qty : Nat) (r : List (List Int) × Nat)
      (k : Nat), k ≠ from_index → k ≠ to_index →
      PourAction.applyLoop vial_size from_index to_index color fuel vials qty
        = some r → r.1.getD k [] = vials.getD k [] := by
  induction fuel with
  | zero =>
    intro vials qty r k _ _ h
    exact absurd h (by rw [PourAction.applyLoop]; simp)
  | succ n ih =>
    intro vials qty r k hkf hkt h
    rw [PourAction.applyLoop] at h
    dsimp only at h
    cases hlast : (vials.getD from_index []).getLast? with
    | none =>
      rw [hlast] at h
      dsimp only at h
      obtain rfl : (vials, qty) = r := by injection h
      rfl
    | some c =>
      rw [hlast] at h
      dsimp only at h
      by_cases hcond : c = color ∧
          (((vials.getD to_index []).length : Int)) < vial_size
      · rw [if_pos hcond] at h
        have hrec := ih _ (qty + 1) r k hkf hkt h
        rw [hrec, getD_set_ne _ _ _ (fun hc => hkf hc.symm),
          getD_set_ne _ _ _ (fun hc => hkt hc.symm)]
      · rw [if_neg hcond] at h
        obtain rfl : (vials, qty) = r := by injection h
        rfl

theorem undoLoop_units (from_index to_index : Nat) (n : Nat) :
    ∀ (vials vials2 : List (List Int)),
      from_index < vials.length → to_index < vials.length →
      PourAction.undoLoop from_index to_index n vials = some vials2 →
      unitsOf vials2 = unitsOf vials := by
  induction n with
  | zero =>
    intro vials vials2 _ _ h
    obtain rfl : vials = vials2 := by injection h
    rfl
  | succ m ih =>
    intro vials vials2 hf ht h
    rw [PourAction.undoLoop] at h
    dsimp only at h
    cases htl : (vials.getD to_index []).getLast? with
    | none => rw [htl] at h; exact absurd h (by simp)
    | some c =>
      rw [htl] at h
      dsimp only at h
      have hfA : from_index <
          (vials.set to_index ((vials.getD to_index []).dropLast)).length := by
        rwa [List.length_set]
      have hfB : from_index <
          ((vials.set to_index ((vials.getD to_index []).dropLast)).set from_index
            (((vials.set to_index ((vials.getD to_index []).dropLast)).getD
              from_index []) ++ [c])).length := by
        simp only [List.length_set]
        exact hf
      have htB : to_index <
          ((vials.set to_index ((vials.getD to_index []).dropLast)).set from_index
            (((vials.set to_index ((vials.getD to_index []).dropLast)).getD
              from_index []) ++ [c])).length := by
        simp only [List.length_set]
        exact ht
      have hrec := ih _ vials2 hfB htB h
      have e1 := unitsOf_set vials to_index ((vials.getD to_index []).dropLast) ht
      have hU1 : unitsOf (vials.set to_index ((vials.getD to_index []).dropLast))
          + (([c] : List Int) : Multiset Int) = unitsOf vials := by
        have e1' : (unitsOf (vials.set to_index ((vials.getD to_index []).dropLast))
            + (([c] : List Int) : Multiset Int))
            + (((vials.getD to_index []).dropLast : List Int) : Multiset Int)
            = unitsOf vials
            + (((vials.getD to_index []).dropLast : List Int) : Multiset Int) := by
          calc (unitsOf (vials.set to_index ((vials.getD to_index []).dropLast))
                + (([c] : List Int) : Multiset Int))
              + (((vials.getD to_index []).dropLast : List Int) : Multiset Int)
              = unitsOf (vials.set to_index ((vials.getD to_index []).dropLast))
                + ((((vials.getD to_index []).dropLast : List Int) : Multiset Int)
                  + (([c] : List Int) : Multiset Int)) := by abel
            _ = unitsOf (vials.set to_index ((vials.getD to_index []).dropLast))
                + ((vials.getD to_index [] : List Int) : Multiset Int) := by
                rw [← coe_eq_dropLast_add _ c htl]
            _ = unitsOf vials
                + (((vials.getD to_index []).dropLast : List Int) : Multiset Int) :=
              e1
        exact add_right_cancel e1'
      have e2 := unitsOf_set (vials.set to_index ((vials.getD to_index []).dropLast))
        from_index (((vials.set to_index ((vials.getD to_index []).dropLast)).getD
          from_index []) ++ [c]) hfA
      have hU2 : unitsOf ((vials.set to_index ((vials.getD to_index []).dropLast)).set
          from_index (((vials.set to_index ((vials.getD to_index []).dropLast)).getD
            from_index []) ++ [c]))
          = unitsOf (vials.set to_index ((vials.getD to_index []).dropLast))
            + (([c] : List Int) : Multiset Int) := by
        have e2' : unitsOf ((vials.set to_index ((vials.getD to_index []).dropLast)).set
            from_index (((vials.set to_index ((vials.getD to_index []).dropLast)).getD
              from_index []) ++ [c]))
            + (((vials.set to_index ((vials.getD to_index []).dropLast)).getD
              from_index [] : List Int) : Multiset Int)
            = (unitsOf (vials.set to_index ((vials.getD to_index []).dropLast))
              + (([c] : List Int) : Multiset Int))
            + (((vials.set to_index ((vials.getD to_index []).dropLast)).getD
              from_index [] : List Int) : Multiset Int) := by
          rw [e2, ← Multiset.coe_add]
          abel
        exact add_right_cancel e2'
      rw [hrec, hU2, hU1]

theorem undoLoop_getD_other (from_index to_index : Nat) (n : Nat) :
    ∀ (vials vials2 : List (List Int)) (k : Nat),
      k ≠ from_index → k ≠ to_index →
      PourAction.undoLoop from_index to_index n vials = some vials2 →
      vials2.getD k [] = vials.getD k [] := by
  induction n with
  | zero =>
    intro vials vials2 k _ _ h
    obtain rfl : vials = vials2 := by injection h
    rfl
  | succ m ih =>
    intro vials vials2 k hkf hkt h
    rw [PourAction.undoLoop] at h
    dsimp only at h
    cases htl : (vials.getD to_index []).getLast? with
    | none => rw [htl] at h; exact absurd h (by simp)
    | some c =>
      rw [htl] at h
      dsimp only at h
      have hrec := ih _ vials2 k hkf hkt h
      rw [hrec, getD_set_ne _ _ _ (fun hc => hkf hc.symm),
        getD_set_ne _ _ _ (fun hc => hkt hc.symm)]

/-- C9: for distinct valid indices, `PourAction.apply` and
`PourAction.undo` preserve the multiset of all units across the board's
vials, and modify no vial other than the two named ones. -/
theorem pour_and_undo_preserve_units (vial_size : Int)
    (from_index to_index : Nat) (hne : from_index ≠ to_index) :
    (∀ (vials : List (List Int)) (r : Bool × PourAction × List (List Int)),
      PourAction.apply ⟨from_index, to_index, 0, false⟩ vial_size vials
        = some r →
      unitsOf r.2.2 = unitsOf vials ∧
      ∀ k, k ≠ from_index → k ≠ to_index →
        r.2.2.getD k [] = vials.getD k []) ∧
    (∀ (qty : Nat) (app : Bool) (vials vials2 : List (List Int)),
      PourAction.undo ⟨from_index, to_index, qty, app⟩ vials = some vials2 →
      unitsOf vials2 = unitsOf vials ∧
      ∀ k, k ≠ from_index → k ≠ to_index →
        vials2.getD k [] = vials.getD k []) := by
  constructor
  · intro vials r h
    rw [PourAction.apply] at h
    dsimp only at h
    by_cases hbounds : from_index < vials.length ∧ to_index < vials.length
    case neg => rw [if_neg hbounds] at h; exact absurd h (by simp)
    rw [if_pos hbounds] at h
    cases hlast : (vials.getD from_index []).getLast? with
    | none =>
      rw [hlast] at h
      dsimp only at h
      obtain rfl : (false, (⟨from_index, to_index, 0, true⟩ : PourAction), vials)
          = r := by injection h
      exact ⟨rfl, fun k _ _ => rfl⟩
    | some color =>
      rw [hlast] at h
      dsimp only at h
      by_cases hguard : (match (vials.getD to_index []).getLast? with
          | some t => decide (t ≠ color)
          | none => false) = true
      · rw [if_pos hguard] at h
        obtain rfl : (false, (⟨from_index, to_index, 0, true⟩ : PourAction), vials)
            = r := by injection h
        exact ⟨rfl, fun k _ _ => rfl⟩
      · rw [if_neg hguard] at h
        cases happly : PourAction.applyLoop vial_size from_index to_index color
            ((vials.getD from_index []).length + 1) vials 0 with
        | none => rw [happly] at h; exact absurd h (by simp)
        | some r2 =>
          rw [happly] at h
          simp only [Option.map_some'] at h
          obtain rfl : (decide (0 < r2.2),
              (⟨from_index, to_index, r2.2, true⟩ : PourAction), r2.1) = r := by
            injection h
          exact ⟨applyLoop_units vial_size from_index to_index color _ vials 0 r2
              hbounds.2 happly,
            fun k hkf hkt => applyLoop_getD_other vial_size from_index to_index
              color _ vials 0 r2 k hkf hkt happly⟩
  · intro qty app vials vials2 h
    rw [PourAction.undo] at h
    dsimp only at h
    by_cases happ : app = false
    · rw [if_pos happ] at h
      exact absurd h (by simp)
    · rw [if_neg happ] at h
      by_cases hbounds : from_index < vials.length ∧ to_index < vials.length
      case neg => rw [if_neg hbounds] at h; exact absurd h (by simp)
      rw [if_pos hbounds] at h
      exact ⟨undoLoop_units from_index to_index qty vials vials2 hbounds.1
          hbounds.2 h,
        fun k hkf hkt => undoLoop_getD_other from_index to_index qty vials
          vials2 k hkf hkt h⟩

/-- Witness for C9: applying pour(0,1) on `[[1,1],[]]` (capacity 4)
preserves the unit multiset and vial 5; undoing a recorded 2-unit pour
on `[[],[2,2]]` does too. -/
theorem pour_and_undo_preserve_units_witness :
    (unitsOf [[], [1, 1]] = unitsOf [[1, 1], []] ∧
      ([[], [1, 1]] : List (List Int)).getD 5 []
        = ([[1, 1], []] : List (List Int)).getD 5 []) ∧
    (unitsOf [[2, 2], []] = unitsOf [[], [2, 2]] ∧
      ([[2, 2], []] : List (List Int)).getD 5 []
        = ([[], [2, 2]] : List (List Int)).getD 5 []) :=
  ⟨⟨((pour_and_undo_preserve_units 4 0 1 (by decide)).1 [[1, 1], []]
      (true, ⟨0, 1, 2, true⟩, [[], [1, 1]]) (by decide)).1,
    ((pour_and_undo_preserve_units 4 0 1 (by decide)).1 [[1, 1], []]
      (true, ⟨0, 1, 2, true⟩, [[], [1, 1]]) (by decide)).2 5 (by decide)
      (by decide)⟩,
   ⟨((pour_and_undo_preserve_units 4 0 1 (by decide)).2 2 true [[], [2, 2]]
      [[2, 2], []] (by decide)).1,
    ((pour_and_undo_preserve_units 4 0 1 (by decide)).2 2 true [[], [2, 2]]
      [[2, 2], []] (by decide)).2 5 (by decide) (by decide)⟩⟩

/-! ### Claim C8: the loader's validation -/

theorem any_of_lookupKey_some (fields : List (String × JValue)) (key : String)
    (v : JValue) (h : lookupKey fields key = some v) :
    fields.any (fun f => f.1 == key) = true := by
  rw [lookupKey] at h
  cases hg : (fields.filter (fun f => f.1 == key)).getLast? with
  | none => rw [hg] at h; exact absurd h (by simp)
  | some p =>
    have hp : p ∈ fields.filter (fun f => f.1 == key) :=
      getLast?_mem_of_eq_some _ p hg
    have hmem := List.mem_filter.mp hp
    exact List.any_eq_true.mpr ⟨p, hmem.1, hmem.2⟩

theorem parseVials_forall₂ (vs : JValue) (vlist : List JValue) :
    ∀ (out : List (List Int)), parseVials vs vlist = .ok out →
      List.Forall₂ (VialOk vs) vlist out := by
  induction vlist with
  | nil =>
    intro out h
    rw [parseVials] at h
    obtain rfl : ([] : List (List Int)) = out := by injection h
    exact List.Forall₂.nil
  | cons v rest ih =>
    intro out h
    cases v with
    | jarr units =>
      rw [parseVials] at h
      try dsimp only at h
      cases hlen : pyLenGT units.length vs with
      | error e => rw [hlen] at h; exact absurd h (by simp)
      | ok tooMany =>
        rw [hlen] at h
        dsimp only at h
        by_cases htm : tooMany = true
        · rw [if_pos htm] at h; exact absurd h (by simp)
        · rw [if_neg htm] at h
          cases hun : unitsToInts units with
          | error e => rw [hun] at h; exact absurd h (by simp)
          | ok ns =>
            rw [hun] at h
            dsimp only at h
            cases hrest : parseVials vs rest with
            | error e => rw [hrest] at h; exact absurd h (by simp)
            | ok rs =>
              rw [hrest] at h
              dsimp only at h
              obtain rfl : ns :: rs = out := by injection h
              have hf : tooMany = false := by
                revert htm
                cases tooMany <;> simp
              rw [hf] at hlen
              exact List.Forall₂.cons ⟨units, rfl, hlen, hun⟩ (ih rs hrest)
    | jnull => exact absurd h (by simp [parseVials])
    | jbool b => exact absurd h (by simp [parseVials])
    | jint n2 => exact absurd h (by simp [parseVials])
    | jstr s => exact absurd h (by simp [parseVials])
    | jobj f2 => exact absurd h (by simp [parseVials])

/-- C8 (amended): `load_board` rejects (with the source's descriptive
ValueError) a record missing "vial_size", a record missing "vials", and
a "vials" value that is not an array; and any successful load came from
an object whose "vials" array holds only arrays of integer units that
passed the capacity comparison.  No validation at all constrains the
"vial_size" value itself (see the counterexample). -/
theorem load_board_validation :
    (∀ fields, fields.any (fun f => f.1 == "vial_size") = false →
      load_board (.jobj fields)
        = .error (.valueError "Key \"vial_size\" is required")) ∧
    (∀ fields v, lookupKey fields "vial_size" = some v →
      fields.any (fun f => f.1 == "vials") = false →
      load_board (.jobj fields)
        = .error (.valueError "Key \"vials\" is required")) ∧
    (∀ fields v w, lookupKey fields "vial_size" = some v →
      lookupKey fields "vials" = some w → (∀ elems, w ≠ .jarr elems) →
      load_board (.jobj fields)
        = .error (.valueError "Key \"vials\" must be an array")) ∧
    (∀ (data : JValue) (r : LoadedBoard), load_board data = .ok r →
      loadShapeOk data r) := by
  refine ⟨?_, ?_, ?_, ?_⟩
  · intro fields hany
    rw [load_board]
    dsimp only [pyIn]
    rw [hany, if_pos rfl]
  · intro fields v hv hany2
    have hany1 := any_of_lookupKey_some fields "vial_size" v hv
    rw [load_board]
    dsimp only [pyIn, pyGetItem]
    rw [hany1, if_neg (by simp), hv]
    try dsimp only
    rw [hany2, if_pos rfl]
  · intro fields v w hv hw hnw
    have hany1 := any_of_lookupKey_some fields "vial_size" v hv
    have hany2 := any_of_lookupKey_some fields "vials" w hw
    rw [load_board]
    dsimp only [pyIn, pyGetItem]
    rw [hany1, if_neg (by simp), hv]
    try dsimp only
    rw [hany2, if_neg (by simp), hw]
    try dsimp only
    cases w with
    | jarr elems => exact absurd rfl (hnw elems)
    | jnull => rfl
    | jbool b => rfl
    | jint n2 => rfl
    | jstr s => rfl
    | jobj f2 => rfl
  · intro data r h
    cases data with
    | jnull => rw [load_board] at h; exact absurd h (by simp [pyIn])
    | jbool b => rw [load_board] at h; exact absurd h (by simp [pyIn])
    | jint n2 => rw [load_board] at h; exact absurd h (by simp [pyIn])
    | jstr s =>
      rw [load_board] at h
      dsimp only [pyIn] at h
      by_cases hb : listIsSubOf ("vial_size").data s.data = false
      · rw [hb] at h
        exact absurd h (by simp)
      · have hb' : listIsSubOf ("vial_size").data s.data = true := by
          revert hb
          cases listIsSubOf ("vial_size").data s.data <;> simp
        rw [hb'] at h
        dsimp only [pyGetItem] at h
        rw [if_neg (by simp)] at h
        exact absurd h (by simp)
    | jarr elems =>
      rw [load_board] at h
      dsimp only [pyIn] at h
      by_cases hb : elems.any (fun e => match e with
          | .jstr s => s == "vial_size"
          | _ => false) = false
      · rw [hb] at h
        exact absurd h (by simp)
      · have hb' : elems.any (fun e => match e with
            | .jstr s => s == "vial_size"
            | _ => false) = true := by
          revert hb
          cases elems.any (fun e => match e with
            | .jstr s => s == "vial_size"
            | _ => false) <;> simp
        rw [hb'] at h
        dsimp only [pyGetItem] at h
        rw [if_neg (by simp)] at h
        exact absurd h (by simp)
    | jobj fields =>
      rw [load_board] at h
      dsimp only [pyIn, pyGetItem] at h
      by_cases h1 : fields.any (fun f => f.1 == "vial_size") = false
      · rw [h1] at h
        exact absurd h (by simp)
      · have h1' : fields.any (fun f => f.1 == "vial_size") = true := by
          revert h1
          cases fields.any (fun f => f.1 == "vial_size") <;> simp
        rw [h1'] at h
        try dsimp only at h
        rw [if_neg (by simp)] at h
        cases hlu1 : lookupKey fields "vial_size" with
        | none => rw [hlu1] at h; exact absurd h (by simp)
        | some v =>
          rw [hlu1] at h
          try dsimp only at h
          by_cases h2 : fields.any (fun f => f.1 == "vials") = false
          · rw [h2] at h
            exact absurd h (by simp)
          · have h2' : fields.any (fun f => f.1 == "vials") = true := by
              revert h2
              cases fields.any (fun f => f.1 == "vials") <;> simp
            rw [h2'] at h
            try dsimp only at h
            rw [if_neg (by simp)] at h
            cases hlu2 : lookupKey fields "vials" with
            | none => rw [hlu2] at h; exact absurd h (by simp)
            | some w =>
              rw [hlu2] at h
              try dsimp only at h
              cases w with
              | jarr vlist =>
                dsimp only at h
                cases hp : parseVials v vlist with
                | error e => rw [hp] at h; exact absurd h (by simp)
                | ok parsed =>
                  rw [hp] at h
                  obtain rfl : (⟨v, parsed⟩ : LoadedBoard) = r := by injection h
                  exact ⟨fields, vlist, rfl, hlu1, hlu2,
                    parseVials_forall₂ v vlist parsed hp⟩
              | jnull => exact absurd h (by simp)
              | jbool b => exact absurd h (by simp)
              | jint n2 => exact absurd h (by simp)
              | jstr s => exact absurd h (by simp)
              | jobj f2 => exact absurd h (by simp)

/-- Witness for the amended C8: the empty object is rejected with the
"vial_size" message. -/
theorem load_board_validation_witness :
    load_board (.jobj []) = .error (.valueError "Key \"vial_size\" is required") :=
  load_board_validation.1 [] rfl

/-- C8, as stated, is false: the loader accepts a record whose
`vial_size` is 0 (or any other value — negative, a string, an object…)
without any type or positivity check; `vial_size` flows into the board
unvalidated.  The claim says such a record must be rejected. -/
theorem load_board_accepts_nonpositive_vial_size :
    load_board (.jobj [("vial_size", .jint 0), ("vials", .jarr [])])
      = .ok ⟨.jint 0, []⟩ := rfl

/-! ### Claim C5 and C7 -/

/-- C5: `Board.is_solved` returns true iff every vial is either empty or
has length exactly `vial_size` with all units equal; in particular a
board with zero vials is solved. -/
theorem board_is_solved_iff_spec :
    (∀ b : Board, Board.is_solved b = true ↔ solvedSpec b) ∧
    (∀ (vial_size : Int) (history : List Action),
      Board.is_solved ⟨vial_size, [], history⟩ = true) := by
  constructor
  · intro b
    unfold Board.is_solved solvedSpec
    rw [List.all_eq_true]
    constructor
    · intro h v hv
      have hv' := h v hv
      cases v with
      | nil => exact Or.inl rfl
      | cons x rest =>
        right
        simp only [Bool.and_eq_true, decide_eq_true_eq, List.all_eq_true,
          beq_iff_eq] at hv'
        refine ⟨hv'.1, ?_⟩
        intro a ha c hc
        have h1 := hv'.2 a ha
        have h2 := hv'.2 c hc
        rw [h1, h2]
    · intro h v hv
      have hv' := h v hv
      cases v with
      | nil => rfl
      | cons x rest =>
        rcases hv' with h1 | ⟨hlen, hall⟩
        · exact absurd h1 (by simp)
        · simp only [Bool.and_eq_true, decide_eq_true_eq, List.all_eq_true,
            beq_iff_eq]
          exact ⟨hlen, fun e he => hall e he x (List.mem_cons_self x rest)⟩
  · intro vial_size history
    rfl

/-- C7: calling `PourAction.undo` on an action that was never applied
(its `applied` flag still false, as set by the constructor) fails loudly
— it raises `ValueError` (modelled as `none`) instead of silently doing
nothing. -/
theorem pour_undo_before_apply_raises (from_index to_index qty_moved : Nat)
    (vials : List (List Int)) :
    PourAction.undo ⟨from_index, to_index, qty_moved, false⟩ vials = none := by
  simp [PourAction.undo]

end Vialsort
